import Mathlib

/-!
Verification of the document-structure parser of the israel-law-mcp
repository (`src/scripts/lib/parser.ts`).

The TypeScript source is shallowly embedded over `List Char`: JavaScript
strings become character lists, the regular expressions of the source are
translated into explicit deterministic scanners (each one is annotated with
the regex it implements), and the imperative state machines become folds
over explicit state records.
-/

namespace IsraelLaw

/-- JavaScript strings are modelled as character lists. -/
abbrev Str := List Char

/-- Conversion from a Lean string literal to the model type. -/
def str (s : String) : Str := s.data

-- ---------------------------------------------------------------------------
-- Character classes (JS `\s`, `\d`, `\w`, ASCII letters)
-- ---------------------------------------------------------------------------

/-- JS `\s` restricted to the ASCII whitespace characters. -/
def isWsC (c : Char) : Bool :=
  c = ' ' || c = '\t' || c = '\n' || c = '\r' || c = Char.ofNat 11 || c = Char.ofNat 12

/-- JS `\d`. -/
def isDigitC (c : Char) : Bool := c.isDigit

/-- ASCII letter, i.e. JS `[A-Za-z]` under the `i` flag also `[A-Z]`. -/
def isLetterC (c : Char) : Bool :=
  ('a' ≤ c && c ≤ 'z') || ('A' ≤ c && c ≤ 'Z')

/-- JS `[a-z]` (no `i` flag). -/
def isLowerC (c : Char) : Bool := 'a' ≤ c && c ≤ 'z'

/-- JS `\w`. -/
def isWordC (c : Char) : Bool := isLetterC c || isDigitC c || c = '_'

/-- ASCII-lowering used for the `i` regex flag. -/
def lowerC (c : Char) : Char := c.toLower

-- ---------------------------------------------------------------------------
-- Basic string utilities
-- ---------------------------------------------------------------------------

/-- Exact prefix test. -/
def leads : Str → Str → Bool
  | [], _ => true
  | _ :: _, [] => false
  | p :: ps, c :: cs => p = c && leads ps cs

/-- Case-insensitive prefix test (the pattern is given in lower case). -/
def leadsCI : Str → Str → Bool
  | [], _ => true
  | _ :: _, [] => false
  | p :: ps, c :: cs => lowerC p = lowerC c && leadsCI ps cs

/-- Case-insensitive whole-string equality, e.g. JS `/^Go$/i`. -/
def eqCI (p l : Str) : Bool := decide (l.length = p.length) && leadsCI p l

/-- JS `String.prototype.trim` (ASCII whitespace). -/
def trimL (l : Str) : Str :=
  ((l.dropWhile isWsC).reverse.dropWhile isWsC).reverse

/-- Collapse every whitespace run to a single space: JS `replace(/\s+/g, ' ')`.
The flag records whether the previous character was part of a run. -/
def squeezeWs : Bool → Str → Str
  | _, [] => []
  | pw, c :: cs =>
    if isWsC c then
      if pw then squeezeWs true cs else ' ' :: squeezeWs true cs
    else c :: squeezeWs false cs

/-- `normalizeText` from the source: `text.replace(/\s+/g, ' ').trim()`. -/
def normL (l : Str) : Str := trimL (squeezeWs false l)

/-- JS `text.split('\n')`. -/
def splitLines : Str → List Str
  | [] => [[]]
  | c :: cs =>
    if c = '\n' then [] :: splitLines cs
    else
      match splitLines cs with
      | [] => [[c]]
      | l :: ls => (c :: l) :: ls

/-- JS `String.prototype.indexOf`: index of the first occurrence of `pat`. -/
def findSubstr (pat : Str) : Str → Option Nat
  | [] => if leads pat [] then some 0 else none
  | c :: cs =>
    if leads pat (c :: cs) then some 0
    else (findSubstr pat cs).map (· + 1)

/-- JS `Array.prototype.join(' ')`. -/
def joinSp : List Str → Str
  | [] => []
  | [x] => x
  | x :: xs => x ++ ' ' :: joinSp xs

-- ---------------------------------------------------------------------------
-- Fixed-pattern replacement (for `stripHtml`'s entity decoding)
-- ---------------------------------------------------------------------------

/-- Fuel-based core of `replaceSub`; the fuel is an upper bound on the
input length, so the out-of-fuel branch is unreachable. -/
def replaceSubFuel (p : Char) (ps rep : Str) : Nat → Str → Str
  | 0, l => l
  | _ + 1, [] => []
  | fuel + 1, c :: cs =>
    if p = c ∧ leads ps cs then
      rep ++ replaceSubFuel p ps rep fuel (cs.drop ps.length)
    else c :: replaceSubFuel p ps rep fuel cs

/-- JS `replace(/pat/g, rep)` for the literal pattern `p :: ps`
(non-overlapping, left to right). -/
def replaceSub (p : Char) (ps rep : Str) (l : Str) : Str :=
  replaceSubFuel p ps rep l.length l

theorem lengthDropWhileLe (p : Char → Bool) (l : Str) :
    (l.dropWhile p).length ≤ l.length :=
  (List.dropWhile_suffix p).length_le

/-- Fuel-based core of `stripTags`. -/
def stripTagsFuel : Nat → Str → Str
  | 0, l => l
  | _ + 1, [] => []
  | fuel + 1, c :: cs =>
    if c = '<' ∧ cs.takeWhile (· ≠ '>') ≠ [] ∧ cs.dropWhile (· ≠ '>') ≠ [] then
      ' ' :: stripTagsFuel fuel ((cs.dropWhile (· ≠ '>')).drop 1)
    else c :: stripTagsFuel fuel cs

/-- JS `replace(/<[^>]+>/g, ' ')`: each complete nonempty tag becomes one
space; a `<` with no later `>` (or with `>` immediately after) is literal. -/
def stripTags (l : Str) : Str := stripTagsFuel l.length l

/-- The five-entity decode chain of `stripHtml`, in source order. -/
def decodeEntities (l : Str) : Str :=
  let l1 := replaceSub '&' (str "nbsp;") (str " ") l
  let l2 := replaceSub '&' (str "amp;") (str "&") l1
  let l3 := replaceSub '&' (str "lt;") (str "<") l2
  let l4 := replaceSub '&' (str "gt;") (str ">") l3
  let l5 := replaceSub '&' (str "quot;") (str "\"") l4
  replaceSub '&' (str "#39;") [Char.ofNat 39] l5

/-- `stripHtml` from the source: strip tags, decode entities, collapse
whitespace, trim. -/
def stripHtmlL (l : Str) : Str := normL (decodeEntities (stripTags l))

-- ---------------------------------------------------------------------------
-- Data model (interfaces of parser.ts)
-- ---------------------------------------------------------------------------

inductive LawStatus where
  | in_force
  | amended
  | repealed
  | not_yet_in_force
deriving DecidableEq

/-- `ActIndexEntry` from the source. -/
structure ActIndexEntry where
  id : Str
  lawName : Str
  year : Nat
  title : Str
  titleEn : Str
  abbreviation : Str
  status : LawStatus
  issuedDate : Str
  inForceDate : Str
  url : Str
deriving DecidableEq

/-- `ParsedProvision` from the source; the `section` field is renamed
`sectionLabel` because `section` is a Lean keyword, and the optional
`chapter` becomes an `Option` (absent = `undefined`). -/
structure ParsedProvision where
  provision_ref : Str
  chapter : Option Str
  sectionLabel : Str
  title : Str
  content : Str
deriving DecidableEq

/-- `ParsedDefinition` from the source. -/
structure ParsedDefinition where
  term : Str
  definition : Str
  source_provision : Option Str
deriving DecidableEq

/-- `ParsedAct` from the source (`type` renamed `ptype`; the optional
`description` is never set by the parsers). -/
structure ParsedAct where
  id : Str
  ptype : Str
  title : Str
  title_en : Str
  short_name : Str
  status : LawStatus
  issued_date : Str
  in_force_date : Str
  url : Str
  description : Option Str
  provisions : List ParsedProvision
  definitions : List ParsedDefinition
deriving DecidableEq

/-- The act-metadata part shared by every parser's return statement. -/
def mkAct (act : ActIndexEntry) (provisions : List ParsedProvision)
    (definitions : List ParsedDefinition) : ParsedAct :=
  ⟨act.id, str "statute", act.title, act.titleEn, act.abbreviation, act.status,
   act.issuedDate, act.inForceDate, act.url, none, provisions, definitions⟩

-- ---------------------------------------------------------------------------
-- Line matchers of the plain-text parsers
-- ---------------------------------------------------------------------------

/-- The shared numeric-label head `(\d+[X]?)\.` of the section patterns,
where `X` is the per-pattern letter class.  Returns the captured label and
the text after the dot.  (Greedy digits, then the optional letter is taken
only when the dot follows it, exactly like regex backtracking.) -/
def numToken (letterOk : Char → Bool) (l : Str) : Option (Str × Str) :=
  let ds := l.takeWhile isDigitC
  let r := l.dropWhile isDigitC
  if ds.isEmpty then none
  else
    match r with
    | '.' :: r2 => some (ds, r2)
    | c :: r1 =>
      if letterOk c then
        match r1 with
        | '.' :: r2 => some (ds ++ [c], r2)
        | _ => none
      else none
    | [] => none

/-- `/^(\d+[A-Za-z]?)\.\s*$/` applied to a (trimmed) line. -/
def matchSectionAlone (l : Str) : Option Str :=
  match numToken isLetterC l with
  | some (n, r2) => if (r2.dropWhile isWsC).isEmpty then some n else none
  | none => none

/-- `/^(\d+[A-Za-z]?)\.\s+(.+)/`: returns the label and the second capture
group.  The `\s+` run is maximal unless the rest of the line is blank, in
which case the regex backtracks and the group captures the final
whitespace character (possible only when the whitespace run has length at
least two). -/
def matchSectionInline (l : Str) : Option (Str × Str) :=
  match numToken isLetterC l with
  | some (n, r2) =>
    let ws := r2.takeWhile isWsC
    let r := r2.dropWhile isWsC
    if ws.isEmpty then none
    else if !r.isEmpty then some (n, r)
    else if ws.length ≥ 2 then some (n, ws.drop (ws.length - 1))
    else none
  | none => none

/-- `/^(\d+[a-z]?)\.\s*(.*)/` of `parseBasicLawText`: the second group is
the rest of the line after the maximal whitespace run (possibly empty). -/
def basicSecMatch (l : Str) : Option (Str × Str) :=
  match numToken isLowerC l with
  | some (n, r2) => some (n, r2.dropWhile isWsC)
  | none => none

/-- `/^Chapter\s+(One|Two|...|\w+):\s*(.+)/i` as a Boolean test: the
alternation is subsumed by `\w+`, which must run up to a colon, and at
least one character must follow the colon. -/
def matchChapterLine (l : Str) : Bool :=
  leadsCI (str "chapter") l &&
    (let r := l.drop 7
     let ws := r.takeWhile isWsC
     let r1 := r.dropWhile isWsC
     let w := r1.takeWhile isWordC
     let r2 := r1.dropWhile isWordC
     !ws.isEmpty && !w.isEmpty &&
       (match r2 with
        | ':' :: rest => !rest.isEmpty
        | _ => false))

/-- `/^Section\s+\d+/` (case-sensitive). -/
def secRefLead (l : Str) : Bool :=
  leads (str "Section") l &&
    (let r := l.drop 7
     !(r.takeWhile isWsC).isEmpty &&
       (match r.dropWhile isWsC with
        | c :: _ => isDigitC c
        | [] => false))

/-- `/^Chapter\s+/i`. -/
def chapterLead (l : Str) : Bool :=
  leadsCI (str "chapter") l &&
    (match l.drop 7 with
     | c :: _ => isWsC c
     | [] => false)

/-- `/^Clause\s+/i`. -/
def clauseLead (l : Str) : Bool :=
  leadsCI (str "clause") l &&
    (match l.drop 6 with
     | c :: _ => isWsC c
     | [] => false)

/-- `/^\d+$/`. -/
def allDigitsL (l : Str) : Bool := !l.isEmpty && l.all isDigitC

-- ---------------------------------------------------------------------------
-- Global regex scanning (the `while ((m = pat.exec(s)) !== null)` loops)
-- ---------------------------------------------------------------------------

/-- One `exec` loop step: `f` tries to match at the current position and
reports the match length with its payload; on failure the scan advances
one character, on success it resumes after the match.  The fuel is an
upper bound on the remaining length, so the out-of-fuel branch is
unreachable. -/
def scanAllAux (f : Str → Option (Nat × α)) : Nat → Nat → Str → List (Nat × α)
  | 0, _, _ => []
  | _ + 1, _, [] => []
  | fuel + 1, pos, c :: cs =>
    match f (c :: cs) with
    | some (len, a) =>
      (pos, a) :: scanAllAux f fuel (pos + max len 1) ((c :: cs).drop (max len 1))
    | none => scanAllAux f fuel (pos + 1) cs

/-- All matches of `f` over `l` with their character offsets. -/
def scanAll (f : Str → Option (Nat × α)) (l : Str) : List (Nat × α) :=
  scanAllAux f l.length 0 l

-- ---------------------------------------------------------------------------
-- Definition extractors
-- ---------------------------------------------------------------------------

/-- `[-–—]`. -/
def isDashC (c : Char) : Bool := c = '-' || c = '–' || c = '—'

/-- A single quoted-term definition pattern attempted at the head of `l`:
`[openQ](term)[close]\s*[dash](\s*[^;]+(?:;|$))` where the term runs up to
the first character satisfying `stop`, `multiDash` selects `[dash]+` over a
single dash, and `allowEnd` admits the `$` alternative of the final `;`.
Returns (match length, term capture, definition capture), reproducing the
greedy-with-backtracking behaviour of the source regexes. -/
def tryDefAt (openQ stop : Char → Bool) (multiDash allowEnd : Bool) (l : Str) :
    Option (Nat × Str × Str) :=
  match l with
  | [] => none
  | q :: r =>
    if !openQ q then none
    else
      let term := r.takeWhile (fun c => !stop c)
      let r1 := r.dropWhile (fun c => !stop c)
      if term.isEmpty then none
      else
        match r1 with
        | _ :: r2 =>
          let r3 := r2.dropWhile isWsC
          match r3 with
          | d :: r4 =>
            if !isDashC d then none
            else
              let r5 := if multiDash then r4.dropWhile isDashC else r4
              let ws2 := r5.takeWhile isWsC
              let r6 := r5.dropWhile isWsC
              let seg := r6.takeWhile (· ≠ ';')
              let r7 := r6.dropWhile (· ≠ ';')
              let dcap :=
                if !seg.isEmpty then some seg
                else if !ws2.isEmpty then some (ws2.drop (ws2.length - 1))
                else if multiDash ∧ (r4.takeWhile isDashC).length ≥ 1 then
                  some ((r4.takeWhile isDashC).drop
                    ((r4.takeWhile isDashC).length - 1))
                else none
              match dcap with
              | none => none
              | some cap =>
                match r7 with
                | ';' :: r8 => some (l.length - r8.length, term, cap ++ [';'])
                | _ =>
                  if allowEnd ∧ r7.isEmpty then some (l.length, term, cap)
                  else none
          | [] => none
        | [] => none

/-- Straight or left-curly opening quote, `["“]`. -/
def isOpenQ (c : Char) : Bool := c = '"' || c = '“'

/-- Straight or right-curly closing quote, the stop set of `[^"”]+`. -/
def isCloseQ (c : Char) : Bool := c = '"' || c = '”'

/-- The pattern of `extractDefinitionsFromContent`:
`/["“]([^"”]+)["”]\s*[-–—]\s*([^;]+(?:;|$))/g`. -/
def tryDefContent : Str → Option (Nat × Str × Str) :=
  tryDefAt isOpenQ isCloseQ false true

/-- First pattern of `extractDefinitionsFromPlainText`:
`/["“]([^"”]+)["”]\s*[-–—]+\s*([^;]+;)/g`. -/
def tryDefPlain1 : Str → Option (Nat × Str × Str) :=
  tryDefAt isOpenQ isCloseQ true false

/-- Second pattern of `extractDefinitionsFromPlainText`:
`/"([^"]+)"\s*[-–—]+\s*([^;]+;)/g`. -/
def tryDefPlain2 : Str → Option (Nat × Str × Str) :=
  tryDefAt (· = '"') (· = '"') true false

/-- `normalizeText(match[2]).replace(/;$/, '').trim()`. -/
def stripSemiTrim (l : Str) : Str :=
  trimL (match l.reverse with
         | ';' :: r => r.reverse
         | _ => l)

/-- One accumulation step of `extractDefinitionsFromContent`. -/
def defStepContent (src : Str) (defs : List ParsedDefinition) (m : Str × Str) :
    List ParsedDefinition :=
  let term := normL m.1
  let dfn := stripSemiTrim (normL m.2)
  if term.length > 1 ∧ term.length < 80 ∧ dfn.length > 5 ∧
      ¬ defs.any (fun d => decide (d.term = term)) then
    defs ++ [⟨term, dfn, some src⟩]
  else defs

/-- `extractDefinitionsFromContent` (the `definitions` array is threaded). -/
def extractDefsFromContent (content src : Str)
    (defs : List ParsedDefinition) : List ParsedDefinition :=
  ((scanAll tryDefContent content).map Prod.snd).foldl (defStepContent src) defs

/-- One accumulation step of `extractDefinitionsFromPlainText`, carrying the
`seen` set next to the output array. -/
def defStepPlain (src : Str) (acc : List Str × List ParsedDefinition)
    (m : Str × Str) : List Str × List ParsedDefinition :=
  let term := normL m.1
  let dfn := stripSemiTrim (normL m.2)
  if term.length > 1 ∧ term.length < 80 ∧ dfn.length > 5 ∧
      ¬ acc.1.any (fun t => decide (t = term)) then
    (acc.1 ++ [term],
     if ¬ acc.2.any (fun d => decide (d.term = term)) then
       acc.2 ++ [⟨term, dfn, some src⟩]
     else acc.2)
  else acc

/-- `extractDefinitionsFromPlainText`: both patterns are scanned over the
content, first pattern's matches first, then accumulated with dedup. -/
def extractDefsFromPlainText (content src : Str)
    (defs : List ParsedDefinition) : List ParsedDefinition :=
  (((scanAll tryDefPlain1 content).map Prod.snd ++
    (scanAll tryDefPlain2 content).map Prod.snd).foldl
      (defStepPlain src) ([], defs)).2

-- ---------------------------------------------------------------------------
-- parseComputerLawText: the plain-text statute state machine
-- ---------------------------------------------------------------------------

/-- An in-progress or finished section accumulator of the plain-text
parsers (`{ num, title, content, chapter }`). -/
structure SecAcc where
  num : Str
  title : Str
  content : Str
  chapter : Str
deriving DecidableEq

/-- The loop state of `parseComputerLawText`: current chapter, the open
section accumulator, the marginal-note buffer and the finished sections. -/
structure CompState where
  chap : Str
  cur : Option SecAcc
  marg : List Str
  secs : List SecAcc
deriving DecidableEq

def compInit : CompState := ⟨[], none, [], []⟩

/-- Marginal-note filter applied when a section-alone line starts a section
(source lines 229–236; note it includes the `Published in` filter). -/
def titleFilterAlone (s : Str) : Bool :=
  !s.isEmpty && s.length < 100 &&
  !chapterLead s && !eqCI (str "go") s &&
  !secRefLead s && !clauseLead s &&
  !(match s with | '*' :: _ => true | _ => false) &&
  !(decide (s = str "Contents")) &&
  !allDigitsL s && !leadsCI (str "computers law") s &&
  !leadsCI (str "published in") s

/-- Marginal-note filter applied when a section-inline line starts a section
(source lines 263–269; it lacks the `Published in` filter). -/
def titleFilterInline (s : Str) : Bool :=
  !s.isEmpty && s.length < 100 &&
  !chapterLead s && !eqCI (str "go") s &&
  !secRefLead s && !clauseLead s &&
  !(match s with | '*' :: _ => true | _ => false) &&
  !(decide (s = str "Contents")) &&
  !allDigitsL s && !leadsCI (str "computers law") s

/-- One line of the `parseComputerLawText` loop (the line is trimmed on
entry, exactly like `lines[i].trim()`). -/
def compStep (st : CompState) (raw : Str) : CompState :=
  let l := trimL raw
  if matchChapterLine l then
    { st with chap := normL l, marg := [] }
  else
    match matchSectionAlone l with
    | some n =>
      { chap := st.chap,
        cur := some ⟨n, normL (joinSp (st.marg.filter titleFilterAlone)), [], st.chap⟩,
        marg := [],
        secs := st.secs ++ st.cur.toList }
    | none =>
      match matchSectionInline l with
      | some (n, g2) =>
        if leadsCI (str "published in") g2 then st
        else
          { chap := st.chap,
            cur := some ⟨n, normL (joinSp (st.marg.filter titleFilterInline)),
                          normL l, st.chap⟩,
            marg := [],
            secs := st.secs ++ st.cur.toList }
      | none =>
        match st.cur with
        | some sec =>
          if l.isEmpty then st
          else if allDigitsL l && decide (l.length ≤ 3) then st
          else if leadsCI (str "computers law, 1995") l then st
          else { st with cur := some { sec with content := sec.content ++ ' ' :: normL l } }
        | none =>
          if l.isEmpty then st
          else if !eqCI (str "go") l && !secRefLead l &&
                  !leadsCI (str "computers law") l && !allDigitsL l &&
                  !(decide (l = str "*")) && !leadsCI (str "published in") l then
            { st with marg := st.marg ++ [l] }
          else if eqCI (str "go") l || secRefLead l then
            { st with marg := [] }
          else st

/-- The assembled section list of `parseComputerLawText` for an
already-trimmed law text (state machine plus finalization of the last
open section). -/
def compMachine (lawText : Str) : List SecAcc :=
  let fin := (splitLines lawText).foldl compStep compInit
  fin.secs ++ fin.cur.toList

/-- The table-of-contents skip: parse from the first occurrence of
`"Computers Law, 5755"`, or the whole text when absent. -/
def compLawText (text : Str) : Str :=
  match findSubstr (str "Computers Law, 5755") text with
  | some i => text.drop i
  | none => text

/-- The emission loop of `parseComputerLawText` (source lines 312–328):
drop short content, truncate to 8000, extract definitions from section 1. -/
def compEmitStep (acc : List ParsedProvision × List ParsedDefinition)
    (sec : SecAcc) : List ParsedProvision × List ParsedDefinition :=
  let content := normL sec.content
  if content.length > 10 then
    (acc.1 ++ [⟨str "sec" ++ sec.num,
               (if sec.chapter.isEmpty then none else some sec.chapter),
               sec.num, sec.title, content.take 8000⟩],
     if sec.num = str "1" then
       extractDefsFromPlainText content (str "sec" ++ sec.num) acc.2
     else acc.2)
  else acc

def compEmit (secs : List SecAcc) :
    List ParsedProvision × List ParsedDefinition :=
  secs.foldl compEmitStep ([], [])

/-- `parseComputerLawText` applied to the law text after the
table-of-contents skip. -/
def compParseBody (lawText : Str) (act : ActIndexEntry) : ParsedAct :=
  let r := compEmit (compMachine lawText)
  mkAct act r.1 r.2

/-- `parseComputerLawText`. -/
def parseComputerLawText (text : Str) (act : ActIndexEntry) : ParsedAct :=
  compParseBody (compLawText text) act

-- ---------------------------------------------------------------------------
-- parseBasicLawText: the basic-law plain-text variant
-- ---------------------------------------------------------------------------

/-- `/^\d+[a-z]?\.\s/`: the look-back's test for a section-like line. -/
def basicSecLead (p : Str) : Bool :=
  match numToken isLowerC p with
  | some (_, r2) =>
    (match r2 with
     | c :: _ => isWsC c
     | [] => false)
  | none => false

/-- The bounded title look-back of `parseBasicLawText` (source lines
364–373): walk up to 4 previous raw lines, newest first, prepending
qualifying lines and stopping at the first blank line once some title text
has been collected. -/
def basicLookback : List Str → Str → Str
  | [], title => title
  | raw :: rest, title =>
    let p := trimL raw
    if !p.isEmpty && !basicSecLead p && !leads (str "(Amendment") p &&
        decide (p.length < 100) then
      basicLookback rest (p ++ (if title.isEmpty then [] else ' ' :: title))
    else if p.isEmpty && !title.isEmpty then title
    else basicLookback rest title

/-- The loop state of `parseBasicLawText`; `prevRev` holds all previous raw
lines, newest first, for the look-back. -/
structure BasicState where
  cur : Option SecAcc
  secs : List SecAcc
  prevRev : List Str
deriving DecidableEq

def basicInit : BasicState := ⟨none, [], []⟩

/-- One line of the `parseBasicLawText` loop. -/
def basicStep (st : BasicState) (raw : Str) : BasicState :=
  let l := trimL raw
  let st2 : BasicState :=
    match basicSecMatch l with
    | some (n, g2) =>
      let title := basicLookback (st.prevRev.take 4) []
      { cur := some ⟨n, normL title, (if g2.isEmpty then [] else normL l), []⟩,
        secs := st.secs ++ st.cur.toList,
        prevRev := st.prevRev }
    | none =>
      match st.cur with
      | some sec =>
        if l.isEmpty then st
        else if leadsCI (str "basic-law:") l || leadsCI (str "this unofficial") l ||
                leadsCI (str "for the full") l || leadsCI (str "special thanks") l then st
        else { st with cur := some { sec with content := sec.content ++ ' ' :: normL l } }
      | none => st
  { st2 with prevRev := raw :: st.prevRev }

/-- The assembled section list of `parseBasicLawText`. -/
def basicMachine (text : Str) : List SecAcc :=
  let fin := (splitLines text).foldl basicStep basicInit
  fin.secs ++ fin.cur.toList

/-- The emission loop of `parseBasicLawText` (source lines 404–415):
`chapter` is always `undefined` and no definitions are extracted. -/
def basicEmitStep (acc : List ParsedProvision) (sec : SecAcc) :
    List ParsedProvision :=
  let content := normL sec.content
  if content.length > 10 then
    acc ++ [⟨str "sec" ++ sec.num, none, sec.num, sec.title, content.take 8000⟩]
  else acc

def basicEmit (secs : List SecAcc) : List ParsedProvision :=
  secs.foldl basicEmitStep []

/-- `parseBasicLawText`. -/
def parseBasicLawText (text : Str) (act : ActIndexEntry) : ParsedAct :=
  mkAct act (basicEmit (basicMachine text)) []

-- ---------------------------------------------------------------------------
-- HTML structural parser (parsePrivacyLawHtml / parseIsraeliLawHtml)
-- ---------------------------------------------------------------------------

/-- A chapter (or merged article) heading match: offset and normalized name. -/
structure ChapMatch where
  pos : Nat
  name : Str
deriving DecidableEq

/-- A section heading match: offset, numeric label and normalized title. -/
structure SecMatch where
  pos : Nat
  num : Str
  title : Str
deriving DecidableEq

/-- Consume a `<B>` opening tag (case-insensitive). -/
def tryBold (l : Str) : Option Str :=
  match l with
  | '<' :: c :: '>' :: r => if lowerC c = 'b' then some r else none
  | _ => none

/-- Consume the optional `<a[^>]*></a>` anchor of the section pattern. -/
def tryAnchor (l : Str) : Option Str :=
  match l with
  | '<' :: c :: r =>
    if lowerC c = 'a' then
      match r.dropWhile (· ≠ '>') with
      | '>' :: r2 =>
        match r2 with
        | '<' :: '/' :: a :: '>' :: r3 => if lowerC a = 'a' then some r3 else none
        | _ => none
      | _ => none
    else none
  | _ => none

/-- The `\s*(\d+[A-Z]?)\.\s+([^<]+)<\/B>` tail of the section pattern.
After the dot, a maximal whitespace run then the non-`<` run form the
greedy region; when the non-`<` run is empty the regex backtracks and the
title capture is the final whitespace character (needing a run of length
at least two).  Returns (label, raw title capture, rest after `</B>`). -/
def afterNumTitle (l : Str) : Option (Str × Str × Str) :=
  let r0 := l.dropWhile isWsC
  match numToken isLetterC r0 with
  | none => none
  | some (n, afterDot) =>
    let ws2 := afterDot.takeWhile isWsC
    let r1 := afterDot.dropWhile isWsC
    let seg := r1.takeWhile (· ≠ '<')
    let r2 := r1.dropWhile (· ≠ '<')
    if ws2.isEmpty then none
    else if seg.isEmpty ∧ ws2.length < 2 then none
    else
      let title := if seg.isEmpty then ws2.drop (ws2.length - 1) else seg
      match r2 with
      | '<' :: '/' :: b :: '>' :: r3 =>
        if lowerC b = 'b' then some (n, title, r3) else none
      | _ => none

/-- `/<B>(?:<a[^>]*><\/a>)?\s*(\d+[A-Z]?)\.\s+([^<]+)<\/B>/gi` attempted at
the head of `l`: (match length, label, raw title capture). -/
def trySectionAt (l : Str) : Option (Nat × Str × Str) :=
  match tryBold l with
  | none => none
  | some r =>
    let cand :=
      match tryAnchor r with
      | some r2 =>
        match afterNumTitle r2 with
        | some res => some res
        | none => afterNumTitle r
      | none => afterNumTitle r
    match cand with
    | some (n, t, rest) => some (l.length - rest.length, n, t)
    | none => none

/-- `/<B>\s*(LIT\s+[^:]+:\s*[^<]+)<\/B>/gi` attempted at the head of `l`,
with `LIT` either `CHAPTER` or `Article` (`lit` is given lower-case):
(match length, raw capture group). -/
def tryHeadAt (lit : Str) (l : Str) : Option (Nat × Str) :=
  match tryBold l with
  | none => none
  | some r =>
    let r1 := r.dropWhile isWsC
    if !leadsCI lit r1 then none
    else
      let r2 := r1.drop lit.length
      let wsA := r2.takeWhile isWsC
      let rA := r2.dropWhile isWsC
      let preA := rA.takeWhile (· ≠ ':')
      let rB := rA.dropWhile (· ≠ ':')
      if wsA.isEmpty then none
      else if preA.isEmpty ∧ wsA.length < 2 then none
      else
        match rB with
        | ':' :: r3 =>
          let wsB := r3.takeWhile isWsC
          let rC := r3.dropWhile isWsC
          let segB := rC.takeWhile (· ≠ '<')
          let rD := rC.dropWhile (· ≠ '<')
          if wsB.length + segB.length = 0 then none
          else
            match rD with
            | '<' :: '/' :: b :: '>' :: rE =>
              if lowerC b = 'b' then
                some (l.length - rE.length,
                      r1.take (lit.length + wsA.length + preA.length + 1 +
                               wsB.length + segB.length))
              else none
            | _ => none
        | _ => none

/-- All section matches of a body, with normalized labels and titles
(`num: secMatch[1].trim()`, `title: normalizeText(stripHtml(secMatch[2]))`). -/
def scanSecs (body : Str) : List SecMatch :=
  (scanAll trySectionAt body).map
    (fun m => ⟨m.1, trimL m.2.1, normL (stripHtmlL m.2.2)⟩)

/-- All chapter-style heading matches for a given literal, with normalized
names. -/
def scanHeads (lit : Str) (body : Str) : List ChapMatch :=
  (scanAll (tryHeadAt lit) body).map
    (fun m => ⟨m.1, normL (stripHtmlL m.2)⟩)

/-- Stable insertion used to model `chapters.sort((a, b) => a.pos - b.pos)`. -/
def insertByPos (x : ChapMatch) : List ChapMatch → List ChapMatch
  | [] => [x]
  | y :: ys => if y.pos ≤ x.pos then y :: insertByPos x ys else x :: y :: ys

def sortByPos (l : List ChapMatch) : List ChapMatch :=
  l.foldr insertByPos []

/-- The inner chapter-attribution loop (source lines 132–136): the last
listed chapter whose offset precedes the section keeps the running value
otherwise. -/
def chapFold (cur : Str) (chs : List ChapMatch) (p : Nat) : Str :=
  chs.foldl (fun acc ch => if ch.pos < p then ch.name else acc) cur

/-- The end offset of a section's content span: the next section's offset
or the body length for the last section. -/
def nextEnd (bodyLen : Nat) : List SecMatch → Nat
  | nxt :: _ => nxt.pos
  | [] => bodyLen

/-- `normalizeText(stripHtml(body.substring(startPos, endPos)))`. -/
def secContent (body : Str) (pos endPos : Nat) : Str :=
  normL (stripHtmlL ((body.drop pos).take (endPos - pos)))

/-- The section-assembly loop shared by `parsePrivacyLawHtml` (with
definition extraction for sections 3, 7 and 17C when `withDefs` is true)
and the generic fallback of `parseIsraeliLawHtml` (source lines 127–160
and 518–539). -/
def buildHtmlAux (withDefs : Bool) (body : Str) (chs : List ChapMatch) :
    Str → List ParsedProvision → List ParsedDefinition → List SecMatch →
    List ParsedProvision × List ParsedDefinition
  | _, provs, defs, [] => (provs, defs)
  | cur, provs, defs, sec :: rest =>
    let cur2 := chapFold cur chs sec.pos
    let content := secContent body sec.pos (nextEnd body.length rest)
    if content.length > 10 then
      buildHtmlAux withDefs body chs cur2
        (provs ++ [⟨str "sec" ++ sec.num,
                    (if cur2.isEmpty then none else some cur2),
                    sec.num, sec.title, content.take 8000⟩])
        (if withDefs ∧ (sec.num = str "3" ∨ sec.num = str "7" ∨ sec.num = str "17C")
         then extractDefsFromContent content (str "sec" ++ sec.num) defs
         else defs)
        rest
    else buildHtmlAux withDefs body chs cur2 provs defs rest

/-- The lookahead `(?=<\/TD>\s*<\/TR>\s*<\/TABLE>\s*<BR>)` of the body
extraction regex. -/
def tdLookahead (l : Str) : Bool :=
  leadsCI (str "</td>") l &&
    (let r1 := (l.drop 5).dropWhile isWsC
     leadsCI (str "</tr>") r1 &&
       (let r2 := (r1.drop 5).dropWhile isWsC
        leadsCI (str "</table>") r2 &&
          leadsCI (str "<br>") ((r2.drop 8).dropWhile isWsC)))

/-- Case-insensitive `indexOf` for the body-extraction literal. -/
def findSubstrCI (pat : Str) : Str → Option Nat
  | [] => if leadsCI pat [] then some 0 else none
  | c :: cs =>
    if leadsCI pat (c :: cs) then some 0
    else (findSubstrCI pat cs).map (· + 1)

/-- First suffix offset satisfying a predicate (for the lazy `[\s\S]*?`
with lookahead). -/
def findSuffixIdx (p : Str → Bool) : Str → Option Nat
  | [] => if p [] then some 0 else none
  | c :: cs =>
    if p (c :: cs) then some 0
    else (findSuffixIdx p cs).map (· + 1)

/-- The body extraction of `parsePrivacyLawHtml`:
`html.match(/PROTECTION OF PRIVACY LAW[\s\S]*?(?=<\/TD>\s*<\/TR>\s*<\/TABLE>\s*<BR>)/i)`,
falling back to the whole input when there is no match. -/
def privacyBody (html : Str) : Str :=
  match findSubstrCI (str "protection of privacy law") html with
  | none => html
  | some i =>
    match findSuffixIdx tdLookahead (html.drop (i + 25)) with
    | some d => (html.drop i).take (25 + d)
    | none => html

/-- `parsePrivacyLawHtml`. -/
def parsePrivacyLawHtml (html : Str) (act : ActIndexEntry) : ParsedAct :=
  let body := privacyBody html
  let chs := sortByPos (scanHeads (str "chapter") body ++ scanHeads (str "article") body)
  let r := buildHtmlAux true body chs [] [] [] (scanSecs body)
  mkAct act r.1 r.2

/-- `parseIsraeliLawHtml`: route the privacy act to its dedicated parser,
otherwise the generic fallback (no body trimming, no article headings, no
definition extraction). -/
def parseIsraeliLawHtml (html : Str) (act : ActIndexEntry) : ParsedAct :=
  if act.id = str "privacy-protection-law-1981" then parsePrivacyLawHtml html act
  else
    let r := buildHtmlAux false html (scanHeads (str "chapter") html) [] [] []
               (scanSecs html)
    mkAct act r.1 r.2

-- ---------------------------------------------------------------------------
-- Specification-side definitions (stated from the spec's words, to be
-- compared with the source-side definitions above)
-- ---------------------------------------------------------------------------

/-- One step of the offset argmax: keep the heading with the larger offset. -/
def pickFn (acc : Option ChapMatch) (ch : ChapMatch) : Option ChapMatch :=
  match acc with
  | none => some ch
  | some m => if m.pos < ch.pos then some ch else some m

/-- Spec: "the chapter whose offset is the greatest offset still less than
the section's offset" — an argmax over the heading list. -/
def chapterBestBefore (chs : List ChapMatch) (p : Nat) : Option ChapMatch :=
  (chs.filter (fun ch => decide (ch.pos < p))).foldl pickFn none

/-- Spec chapter attribution: the name of the nearest preceding heading, or
none for a section preceding every heading. -/
def specChapterOf (chs : List ChapMatch) (p : Nat) : Option Str :=
  (chapterBestBefore chs p).map ChapMatch.name

/-- Pair every section with the offset ending its content span (the next
section's offset, or the body length for the last section). -/
def secsWithEnd (bodyLen : Nat) : List SecMatch → List (SecMatch × Nat)
  | [] => []
  | s :: rest => (s, nextEnd bodyLen rest) :: secsWithEnd bodyLen rest

/-- Spec-side HTML section assembly: each section is handled independently,
its chapter computed by `specChapterOf`, its content span normalized,
dropped iff at most 10 characters, truncated to 8000. -/
def specBuildHtml (body : Str) (chs : List ChapMatch) (secs : List SecMatch) :
    List ParsedProvision :=
  (secsWithEnd body.length secs).filterMap (fun se =>
    let content := secContent body se.1.pos se.2
    if content.length > 10 then
      some ⟨str "sec" ++ se.1.num, specChapterOf chs se.1.pos,
            se.1.num, se.1.title, content.take 8000⟩
    else none)

/-- The per-section record of the HTML loop before the length threshold is
applied: full normalized content paired with the provision that would be
emitted (chapter state threaded exactly as in the source loop). -/
def htmlCandidates (body : Str) (chs : List ChapMatch) :
    Str → List SecMatch → List (Str × ParsedProvision)
  | _, [] => []
  | cur, sec :: rest =>
    let cur2 := chapFold cur chs sec.pos
    let content := secContent body sec.pos (nextEnd body.length rest)
    (content,
     ⟨str "sec" ++ sec.num, (if cur2.isEmpty then none else some cur2),
      sec.num, sec.title, content.take 8000⟩) :: htmlCandidates body chs cur2 rest

/-- Spec emission rule for the HTML loop: keep a candidate iff its full
normalized content exceeds 10 characters. -/
def specKeepHtml (c : Str × ParsedProvision) : Option ParsedProvision :=
  if c.1.length > 10 then some c.2 else none

/-- Spec emission rule of the statute state machine: keep a section iff its
normalized content exceeds 10 characters, truncating to 8000. -/
def specKeepComp (sec : SecAcc) : Option ParsedProvision :=
  let content := normL sec.content
  if content.length > 10 then
    some ⟨str "sec" ++ sec.num,
          (if sec.chapter.isEmpty then none else some sec.chapter),
          sec.num, sec.title, content.take 8000⟩
  else none

/-- Spec emission rule of the basic-law variant (chapter always absent). -/
def specKeepBasic (sec : SecAcc) : Option ParsedProvision :=
  let content := normL sec.content
  if content.length > 10 then
    some ⟨str "sec" ++ sec.num, none, sec.num, sec.title, content.take 8000⟩
  else none

/-- Spec-side accumulation step for definitions (amended bounds): append
exactly when the term has 2 to 79 characters, the definition more than 5,
and the term is not already captured. -/
def specDefStepContent (src : Str) (defs : List ParsedDefinition)
    (m : Str × Str) : List ParsedDefinition :=
  let term := normL m.1
  let dfn := stripSemiTrim (normL m.2)
  if 2 ≤ term.length ∧ term.length ≤ 79 ∧ 5 < dfn.length ∧
      (∀ d ∈ defs, d.term ≠ term) then
    defs ++ [⟨term, dfn, some src⟩]
  else defs

def specExtractContent (content src : Str) (defs : List ParsedDefinition) :
    List ParsedDefinition :=
  ((scanAll tryDefContent content).map Prod.snd).foldl
    (specDefStepContent src) defs

/-- Spec-side accumulation step for the plain-text extractor (amended
bounds), with its `seen` companion set. -/
def specDefStepPlain (src : Str) (acc : List Str × List ParsedDefinition)
    (m : Str × Str) : List Str × List ParsedDefinition :=
  let term := normL m.1
  let dfn := stripSemiTrim (normL m.2)
  if 2 ≤ term.length ∧ term.length ≤ 79 ∧ 5 < dfn.length ∧ term ∉ acc.1 then
    (acc.1 ++ [term],
     if ∀ d ∈ acc.2, d.term ≠ term then acc.2 ++ [⟨term, dfn, some src⟩]
     else acc.2)
  else acc

def specExtractPlain (content src : Str) (defs : List ParsedDefinition) :
    List ParsedDefinition :=
  (((scanAll tryDefPlain1 content).map Prod.snd ++
    (scanAll tryDefPlain2 content).map Prod.snd).foldl
      (specDefStepPlain src) ([], defs)).2

-- ---------------------------------------------------------------------------
-- Concrete sample inputs used by witnesses and counterexamples
-- ---------------------------------------------------------------------------

/-- A generic act-identity record (its fields are irrelevant to parsing). -/
def sampleAct : ActIndexEntry :=
  ⟨str "test-act", str "Test Law", 2000, str "Test", str "Test Law EN",
   str "TL", .in_force, str "2000-01-01", str "2000-02-01",
   str "http://example.org"⟩

/-- The spec's plain-text scenario input (claim C3). -/
def c3Input : Str :=
  str "Marginal Title\n\n1.\n\nBody text here that is long enough.\n\n2. Inline body text also long enough."

/-- A one-line statute whose normalized section content has exactly 9000
characters. -/
def c5Big : Str := str "1. " ++ List.replicate 8997 'a'

/-- A 79-character term (boundary case of the definition extractor). -/
def term79 : Str := List.replicate 79 'a'

/-- An 80-character term. -/
def term80 : Str := List.replicate 80 'a'

/-- Statute text containing an in-section `9. Published in ...` line
(claim C8). -/
def c8Input : Str :=
  str "1.\n\nSome long content here.\n\n9. Published in the Official Gazette\n\nMore trailing content here."

/-- A fake table-of-contents region preceding the law-text marker
(claim C10). -/
def c10Pre : Str := str "1. Fake table entry long enough.\n"

def c10Post : Str := str "\n2. Real content that is long enough."

-- ---------------------------------------------------------------------------
-- Shared helper lemmas
-- ---------------------------------------------------------------------------

theorem dropWhileNo {p : Char → Bool} {l : Str}
    (h : ∀ c ∈ l, p c = false) : l.dropWhile p = l := by
  cases l with
  | nil => rfl
  | cons c cs =>
    rw [List.dropWhile_cons, h c (List.mem_cons_self c cs)]
    simp

theorem squeezeWsNo {l : Str} (h : ∀ c ∈ l, isWsC c = false) :
    ∀ b, squeezeWs b l = l := by
  induction l with
  | nil => intro b; rfl
  | cons c cs ih =>
    intro b
    have hc := h c (List.mem_cons_self c cs)
    simp only [squeezeWs, hc, if_false, Bool.false_eq_true]
    rw [ih (fun x hx => h x (List.mem_cons_of_mem c hx)) false]

theorem trimLNo {l : Str} (h : ∀ c ∈ l, isWsC c = false) : trimL l = l := by
  unfold trimL
  rw [dropWhileNo h, dropWhileNo (fun c hc => h c (List.mem_reverse.mp hc)),
    List.reverse_reverse]

theorem normLNo {l : Str} (h : ∀ c ∈ l, isWsC c = false) : normL l = l := by
  unfold normL
  rw [squeezeWsNo h false, trimLNo h]

theorem splitLinesNoNewline {l : Str} (h : '\n' ∉ l) : splitLines l = [l] := by
  induction l with
  | nil => rfl
  | cons c cs ih =>
    have hc : c ≠ '\n' := fun hh => h (hh ▸ List.mem_cons_self c cs)
    have hcs : '\n' ∉ cs := fun hh => h (List.mem_cons_of_mem c hh)
    simp only [splitLines, if_neg (fun hh => hc hh), ih hcs]

theorem leadsAppendSelf (p l : Str) : leads p (p ++ l) = true := by
  induction p with
  | nil => rfl
  | cons c cs ih => simp [leads, ih]

theorem findSubstrNoneOfNotMem {c : Char} {pat l : Str} (h : c ∉ l) :
    findSubstr (c :: pat) l = none := by
  induction l with
  | nil => rfl
  | cons x xs ih =>
    have hx : c ≠ x := fun hh => h (hh ▸ List.mem_cons_self x xs)
    have hxs : c ∉ xs := fun hh => h (List.mem_cons_of_mem x hh)
    have hl : leads (c :: pat) (x :: xs) = false := by
      simp [leads, hx]
    simp [findSubstr, hl, ih hxs]

theorem findSubstrAppend {pat pre rest : Str}
    (hat : leads pat rest = true)
    (hbefore : ∀ j, j < pre.length → leads pat ((pre ++ rest).drop j) = false) :
    findSubstr pat (pre ++ rest) = some pre.length := by
  induction pre with
  | nil =>
    cases rest with
    | nil => simp [findSubstr, hat]
    | cons r rs => simp [findSubstr, hat]
  | cons c cs ih =>
    have h0 : leads pat (c :: (cs ++ rest)) = false := by
      have := hbefore 0 (by simp)
      simpa using this
    have ih2 := ih (fun j hj => by
      have := hbefore (j + 1) (by simp; omega)
      simpa using this)
    simp [findSubstr, h0, ih2]

theorem compStepNone (st : CompState) (raw : Str)
    (h1 : matchSectionAlone (trimL raw) = none)
    (h2 : matchSectionInline (trimL raw) = none)
    (hc : st.cur = none) :
    (compStep st raw).cur = none ∧ (compStep st raw).secs = st.secs := by
  obtain ⟨chap, cur, marg, secs⟩ := st
  simp only [CompState.cur] at hc
  subst hc
  unfold compStep
  simp only [h1, h2]
  repeat' split
  all_goals exact ⟨rfl, rfl⟩

theorem compFoldNone (lines : List Str) :
    ∀ st : CompState,
      (∀ raw ∈ lines, matchSectionAlone (trimL raw) = none ∧
        matchSectionInline (trimL raw) = none) →
      st.cur = none →
      (lines.foldl compStep st).cur = none ∧
        (lines.foldl compStep st).secs = st.secs := by
  induction lines with
  | nil => exact fun st _ hc => ⟨hc, rfl⟩
  | cons l ls ih =>
    intro st h hc
    have h0 := h l (List.mem_cons_self l ls)
    have step := compStepNone st l h0.1 h0.2 hc
    have rest := ih (compStep st l) (fun r hr => h r (List.mem_cons_of_mem l hr)) step.1
    exact ⟨rest.1, rest.2.trans step.2⟩

theorem basicStepNone (st : BasicState) (raw : Str)
    (h1 : basicSecMatch (trimL raw) = none)
    (hc : st.cur = none) :
    (basicStep st raw).cur = none ∧ (basicStep st raw).secs = st.secs := by
  obtain ⟨cur, secs, prevRev⟩ := st
  simp only [BasicState.cur] at hc
  subst hc
  unfold basicStep
  simp only [h1]
  simp

theorem basicFoldNone (lines : List Str) :
    ∀ st : BasicState,
      (∀ raw ∈ lines, basicSecMatch (trimL raw) = none) →
      st.cur = none →
      (lines.foldl basicStep st).cur = none ∧
        (lines.foldl basicStep st).secs = st.secs := by
  induction lines with
  | nil => exact fun st _ hc => ⟨hc, rfl⟩
  | cons l ls ih =>
    intro st h hc
    have step := basicStepNone st l (h l (List.mem_cons_self l ls)) hc
    have rest := ih (basicStep st l) (fun r hr => h r (List.mem_cons_of_mem l hr)) step.1
    exact ⟨rest.1, rest.2.trans step.2⟩

theorem compEmitFoldFst (secs : List SecAcc) :
    ∀ acc : List ParsedProvision × List ParsedDefinition,
      (secs.foldl compEmitStep acc).1 = acc.1 ++ secs.filterMap specKeepComp := by
  induction secs with
  | nil => intro acc; simp
  | cons s ss ih =>
    intro acc
    rw [List.foldl_cons, ih, List.filterMap_cons]
    by_cases h : (normL s.content).length > 10
    · simp [compEmitStep, specKeepComp, h]
    · simp [compEmitStep, specKeepComp, h]

theorem basicEmitFold (secs : List SecAcc) :
    ∀ acc : List ParsedProvision,
      secs.foldl basicEmitStep acc = acc ++ secs.filterMap specKeepBasic := by
  induction secs with
  | nil => intro acc; simp
  | cons s ss ih =>
    intro acc
    rw [List.foldl_cons, ih, List.filterMap_cons]
    by_cases h : (normL s.content).length > 10
    · simp [basicEmitStep, specKeepBasic, h]
    · simp [basicEmitStep, specKeepBasic, h]

theorem compProvisionsEq (text : Str) (act : ActIndexEntry) :
    (parseComputerLawText text act).provisions =
      (compMachine (compLawText text)).filterMap specKeepComp := by
  show (compEmit (compMachine (compLawText text))).1 = _
  rw [compEmit, compEmitFoldFst]
  rfl

theorem basicProvisionsEq (text : Str) (act : ActIndexEntry) :
    (parseBasicLawText text act).provisions =
      (basicMachine text).filterMap specKeepBasic := by
  show basicEmit (basicMachine text) = _
  rw [basicEmit, basicEmitFold]
  rfl

theorem buildHtmlAuxCons (wd : Bool) (body : Str) (chs : List ChapMatch)
    (cur : Str) (provs : List ParsedProvision) (defs : List ParsedDefinition)
    (sec : SecMatch) (rest : List SecMatch) :
    buildHtmlAux wd body chs cur provs defs (sec :: rest) =
      (if (secContent body sec.pos (nextEnd body.length rest)).length > 10 then
        buildHtmlAux wd body chs (chapFold cur chs sec.pos)
          (provs ++ [⟨str "sec" ++ sec.num,
            (if (chapFold cur chs sec.pos).isEmpty then none
             else some (chapFold cur chs sec.pos)),
            sec.num, sec.title,
            (secContent body sec.pos (nextEnd body.length rest)).take 8000⟩])
          (if wd ∧ (sec.num = str "3" ∨ sec.num = str "7" ∨ sec.num = str "17C") then
             extractDefsFromContent (secContent body sec.pos (nextEnd body.length rest))
               (str "sec" ++ sec.num) defs
           else defs)
          rest
      else
        buildHtmlAux wd body chs (chapFold cur chs sec.pos) provs defs rest) :=
  rfl

theorem htmlCandidatesCons (body : Str) (chs : List ChapMatch) (cur : Str)
    (sec : SecMatch) (rest : List SecMatch) :
    htmlCandidates body chs cur (sec :: rest) =
      (secContent body sec.pos (nextEnd body.length rest),
       ⟨str "sec" ++ sec.num,
        (if (chapFold cur chs sec.pos).isEmpty then none
         else some (chapFold cur chs sec.pos)),
        sec.num, sec.title,
        (secContent body sec.pos (nextEnd body.length rest)).take 8000⟩) ::
      htmlCandidates body chs (chapFold cur chs sec.pos) rest :=
  rfl

theorem specKeepHtmlPos (a : Str) (p : ParsedProvision) (h : a.length > 10) :
    specKeepHtml (a, p) = some p := by
  simp [specKeepHtml, h]

theorem specKeepHtmlNeg (a : Str) (p : ParsedProvision) (h : ¬ a.length > 10) :
    specKeepHtml (a, p) = none := by
  simp [specKeepHtml, h]

theorem buildHtmlAuxFst (wd : Bool) (body : Str) (chs : List ChapMatch)
    (secs : List SecMatch) :
    ∀ (cur : Str) (provs : List ParsedProvision) (defs : List ParsedDefinition),
      (buildHtmlAux wd body chs cur provs defs secs).1 =
        provs ++ (htmlCandidates body chs cur secs).filterMap specKeepHtml := by
  induction secs with
  | nil => intro cur provs defs; simp [buildHtmlAux, htmlCandidates]
  | cons sec rest ih =>
    intro cur provs defs
    rw [buildHtmlAuxCons, htmlCandidatesCons, List.filterMap_cons]
    by_cases h : (secContent body sec.pos (nextEnd body.length rest)).length > 10
    · rw [if_pos h, ih, specKeepHtmlPos _ _ h]
      simp
    · rw [if_neg h, ih, specKeepHtmlNeg _ _ h]

theorem htmlCandidatesNil (body : Str) (chs : List ChapMatch) (cur : Str) :
    htmlCandidates body chs cur [] = [] := rfl

theorem htmlCandidatesContent (body : Str) (chs : List ChapMatch)
    (secs : List SecMatch) :
    ∀ (cur : Str), ∀ c ∈ htmlCandidates body chs cur secs,
      c.2.content = c.1.take 8000 := by
  induction secs with
  | nil =>
    intro cur c hc
    rw [htmlCandidatesNil] at hc
    exact absurd hc (List.not_mem_nil c)
  | cons sec rest ih =>
    intro cur
    rw [htmlCandidatesCons, List.forall_mem_cons]
    refine ⟨?_, ih _⟩
    dsimp only

theorem privacyProvisionsEq (html : Str) (act : ActIndexEntry) :
    (parsePrivacyLawHtml html act).provisions =
      (htmlCandidates (privacyBody html)
        (sortByPos (scanHeads (str "chapter") (privacyBody html) ++
          scanHeads (str "article") (privacyBody html))) []
        (scanSecs (privacyBody html))).filterMap specKeepHtml := by
  show (buildHtmlAux true (privacyBody html) _ [] [] [] _).1 = _
  rw [buildHtmlAuxFst]
  rfl

theorem israeliProvisionsEq (html : Str) (act : ActIndexEntry)
    (hid : act.id ≠ str "privacy-protection-law-1981") :
    (parseIsraeliLawHtml html act).provisions =
      (htmlCandidates html (scanHeads (str "chapter") html) []
        (scanSecs html)).filterMap specKeepHtml := by
  unfold parseIsraeliLawHtml
  rw [if_neg hid]
  show (buildHtmlAux false html _ [] [] [] _).1 = _
  rw [buildHtmlAuxFst]
  rfl

theorem specKeepCompLen {sec : SecAcc} {p : ParsedProvision}
    (h : specKeepComp sec = some p) : p.content.length ≤ 8000 := by
  unfold specKeepComp at h
  by_cases hl : (normL sec.content).length > 10
  · rw [if_pos hl] at h
    cases h
    simp [List.length_take]
  · rw [if_neg hl] at h
    cases h

theorem specKeepBasicLen {sec : SecAcc} {p : ParsedProvision}
    (h : specKeepBasic sec = some p) : p.content.length ≤ 8000 := by
  unfold specKeepBasic at h
  by_cases hl : (normL sec.content).length > 10
  · rw [if_pos hl] at h
    cases h
    simp [List.length_take]
  · rw [if_neg hl] at h
    cases h

theorem getLastQCons {α : Type} (a : α) (l : List α) :
    (a :: l).getLast? = some (l.getLast?.getD a) := by
  induction l generalizing a with
  | nil => rfl
  | cons b m ih =>
    rw [List.getLast?_cons_cons, ih b]
    rfl

theorem getLastQMem {α : Type} {l : List α} {x : α} (h : l.getLast? = some x) :
    x ∈ l := by
  have hx : x ∈ l.getLast? := by rw [h]; rfl
  obtain ⟨hh, rfl⟩ := List.mem_getLast?_eq_getLast hx
  exact List.getLast_mem hh

theorem chapFoldEq (chs : List ChapMatch) :
    ∀ (cur : Str) (p : Nat),
      chapFold cur chs p =
        (((chs.filter (fun ch => decide (ch.pos < p))).getLast?).map
          ChapMatch.name).getD cur := by
  induction chs with
  | nil => intro cur p; rfl
  | cons ch rest ih =>
    intro cur p
    have hstep : chapFold cur (ch :: rest) p =
        chapFold (if ch.pos < p then ch.name else cur) rest p := by
      unfold chapFold
      rw [List.foldl_cons]
    rw [hstep, List.filter_cons]
    by_cases h : ch.pos < p
    · rw [if_pos h, if_pos (by simpa using h), ih, getLastQCons]
      cases hfe : (rest.filter (fun ch => decide (ch.pos < p))).getLast? with
      | none => simp [hfe]
      | some m => simp [hfe]
    · rw [if_neg h, if_neg (by simpa using h), ih]

theorem pickFoldSome (l : List ChapMatch) :
    ∀ m : ChapMatch, (∀ y ∈ l, m.pos < y.pos) →
      l.Pairwise (fun a b => a.pos < b.pos) →
      l.foldl pickFn (some m) = some (l.getLast?.getD m) := by
  induction l with
  | nil => intro m _ _; rfl
  | cons y ys ih =>
    intro m hall hp
    have hmy : m.pos < y.pos := hall y (List.mem_cons_self y ys)
    have hstep : pickFn (some m) y = some y := by simp [pickFn, hmy]
    rw [List.foldl_cons, hstep, getLastQCons,
      ih y (List.pairwise_cons.mp hp).1 (List.pairwise_cons.mp hp).2]
    rfl

theorem bestBeforeSorted (chs : List ChapMatch) (p : Nat)
    (hs : chs.Pairwise (fun a b => a.pos < b.pos)) :
    chapterBestBefore chs p =
      (chs.filter (fun ch => decide (ch.pos < p))).getLast? := by
  unfold chapterBestBefore
  have hf := hs.filter (fun ch => decide (ch.pos < p))
  cases hfil : chs.filter (fun ch => decide (ch.pos < p)) with
  | nil => rfl
  | cons y ys =>
    rw [hfil] at hf
    have h1 : pickFn none y = some y := rfl
    rw [List.foldl_cons, h1,
      pickFoldSome ys y (List.pairwise_cons.mp hf).1 (List.pairwise_cons.mp hf).2,
      getLastQCons]

theorem specKeepHtmlSome {c : Str × ParsedProvision} {p : ParsedProvision}
    (h : specKeepHtml c = some p) : p = c.2 := by
  unfold specKeepHtml at h
  by_cases hl : c.1.length > 10
  · rw [if_pos hl] at h
    cases h
    rfl
  · rw [if_neg hl] at h
    cases h

theorem buildHtmlAuxNil (wd : Bool) (body : Str) (chs : List ChapMatch)
    (cur : Str) (provs : List ParsedProvision) (defs : List ParsedDefinition) :
    buildHtmlAux wd body chs cur provs defs [] = (provs, defs) := rfl

theorem specBuildHtmlCons (body : Str) (chs : List ChapMatch) (sec : SecMatch)
    (rest : List SecMatch) :
    specBuildHtml body chs (sec :: rest) =
      (if (secContent body sec.pos (nextEnd body.length rest)).length > 10 then
        [⟨str "sec" ++ sec.num, specChapterOf chs sec.pos, sec.num, sec.title,
          (secContent body sec.pos (nextEnd body.length rest)).take 8000⟩]
       else []) ++ specBuildHtml body chs rest := by
  show List.filterMap _ ((sec, nextEnd body.length rest) :: secsWithEnd body.length rest) = _
  rw [List.filterMap_cons]
  dsimp only
  by_cases h : (secContent body sec.pos (nextEnd body.length rest)).length > 10
  · rw [if_pos h, if_pos h]
    dsimp only
    rw [List.singleton_append]
    rfl
  · rw [if_neg h, if_neg h]
    rfl

theorem buildHtmlSpec (wd : Bool) (body : Str) (chs : List ChapMatch)
    (hs : chs.Pairwise (fun a b => a.pos < b.pos))
    (hn : ∀ ch ∈ chs, ch.name ≠ []) :
    ∀ (secs : List SecMatch) (p0 : Nat) (cur : Str)
      (provs : List ParsedProvision) (defs : List ParsedDefinition),
      cur = (((chs.filter (fun ch => decide (ch.pos < p0))).getLast?).map
        ChapMatch.name).getD [] →
      (∀ s ∈ secs, p0 ≤ s.pos) →
      secs.Pairwise (fun a b => a.pos ≤ b.pos) →
      (buildHtmlAux wd body chs cur provs defs secs).1 =
        provs ++ specBuildHtml body chs secs := by
  intro secs
  induction secs with
  | nil =>
    intro p0 cur provs defs _ _ _
    rw [buildHtmlAuxNil]
    simp [specBuildHtml, secsWithEnd]
  | cons sec rest ih =>
    intro p0 cur provs defs hcur hmono hsort
    have hp0sec : p0 ≤ sec.pos := hmono sec (List.mem_cons_self sec rest)
    have hcur2 : chapFold cur chs sec.pos =
        (((chs.filter (fun ch => decide (ch.pos < sec.pos))).getLast?).map
          ChapMatch.name).getD [] := by
      rw [chapFoldEq]
      cases hfe : (chs.filter (fun ch => decide (ch.pos < sec.pos))).getLast? with
      | some m => rfl
      | none =>
        have hfil : chs.filter (fun ch => decide (ch.pos < sec.pos)) = [] :=
          List.getLast?_eq_none_iff.mp hfe
        have hfil0 : chs.filter (fun ch => decide (ch.pos < p0)) = [] := by
          rw [List.filter_eq_nil_iff]
          intro ch hch
          have h2 := List.filter_eq_nil_iff.mp hfil ch hch
          simp only [decide_eq_true_eq] at h2 ⊢
          omega
        rw [hcur, hfil0]
        rfl
    have hchap : (if (chapFold cur chs sec.pos).isEmpty then none
        else some (chapFold cur chs sec.pos)) = specChapterOf chs sec.pos := by
      rw [hcur2]
      unfold specChapterOf
      rw [bestBeforeSorted chs sec.pos hs]
      cases hfe : (chs.filter (fun ch => decide (ch.pos < sec.pos))).getLast? with
      | none => rfl
      | some m =>
        have hm : m ∈ chs := (List.mem_filter.mp (getLastQMem hfe)).1
        have hname := hn m hm
        simp [List.isEmpty_iff, hname]
    have hmono2 : ∀ s ∈ rest, sec.pos ≤ s.pos := (List.pairwise_cons.mp hsort).1
    have hsort2 := (List.pairwise_cons.mp hsort).2
    rw [buildHtmlAuxCons, specBuildHtmlCons]
    by_cases h : (secContent body sec.pos (nextEnd body.length rest)).length > 10
    · rw [if_pos h, if_pos h, hchap,
        ih sec.pos (chapFold cur chs sec.pos) _ _ hcur2 hmono2 hsort2]
      rw [List.append_assoc, List.singleton_append]
    · rw [if_neg h, if_neg h,
        ih sec.pos (chapFold cur chs sec.pos) _ _ hcur2 hmono2 hsort2,
        List.nil_append]


theorem defStepContentEq (src : Str) (defs : List ParsedDefinition)
    (m : Str × Str) : defStepContent src defs m = specDefStepContent src defs m := by
  show (if (normL m.1).length > 1 ∧ (normL m.1).length < 80 ∧
          (stripSemiTrim (normL m.2)).length > 5 ∧
          ¬ defs.any (fun d => decide (d.term = normL m.1)) then
        defs ++ [⟨normL m.1, stripSemiTrim (normL m.2), some src⟩] else defs) =
      (if 2 ≤ (normL m.1).length ∧ (normL m.1).length ≤ 79 ∧
          5 < (stripSemiTrim (normL m.2)).length ∧
          (∀ d ∈ defs, d.term ≠ normL m.1) then
        defs ++ [⟨normL m.1, stripSemiTrim (normL m.2), some src⟩] else defs)
  refine if_congr ?_ rfl rfl
  constructor
  · rintro ⟨h1, h2, h3, h4⟩
    refine ⟨by omega, by omega, h3, ?_⟩
    intro d hd heq
    exact h4 (List.any_eq_true.mpr ⟨d, hd, by simp [heq]⟩)
  · rintro ⟨h1, h2, h3, h4⟩
    refine ⟨by omega, by omega, h3, ?_⟩
    intro hany
    obtain ⟨d, hd, hdec⟩ := List.any_eq_true.mp hany
    exact h4 d hd (by simpa using hdec)

theorem extractContentEq (content src : Str) (defs : List ParsedDefinition) :
    extractDefsFromContent content src defs = specExtractContent content src defs := by
  unfold extractDefsFromContent specExtractContent
  generalize (scanAll tryDefContent content).map Prod.snd = ms
  induction ms generalizing defs with
  | nil => rfl
  | cons m ms ih => rw [List.foldl_cons, List.foldl_cons, defStepContentEq, ih]

theorem defStepPlainEq (src : Str) (acc : List Str × List ParsedDefinition)
    (m : Str × Str) : defStepPlain src acc m = specDefStepPlain src acc m := by
  show (if (normL m.1).length > 1 ∧ (normL m.1).length < 80 ∧
          (stripSemiTrim (normL m.2)).length > 5 ∧
          ¬ acc.1.any (fun t => decide (t = normL m.1)) then
        (acc.1 ++ [normL m.1],
         if ¬ acc.2.any (fun d => decide (d.term = normL m.1)) then
           acc.2 ++ [⟨normL m.1, stripSemiTrim (normL m.2), some src⟩]
         else acc.2)
       else acc) =
      (if 2 ≤ (normL m.1).length ∧ (normL m.1).length ≤ 79 ∧
          5 < (stripSemiTrim (normL m.2)).length ∧ normL m.1 ∉ acc.1 then
        (acc.1 ++ [normL m.1],
         if ∀ d ∈ acc.2, d.term ≠ normL m.1 then
           acc.2 ++ [⟨normL m.1, stripSemiTrim (normL m.2), some src⟩]
         else acc.2)
       else acc)
  refine if_congr ?_ (congrArg _ (if_congr ?_ rfl rfl)) rfl
  · constructor
    · rintro ⟨h1, h2, h3, h4⟩
      refine ⟨by omega, by omega, h3, ?_⟩
      intro hmem
      exact h4 (List.any_eq_true.mpr ⟨normL m.1, hmem, by simp⟩)
    · rintro ⟨h1, h2, h3, h4⟩
      refine ⟨by omega, by omega, h3, ?_⟩
      intro hany
      obtain ⟨t, ht, hdec⟩ := List.any_eq_true.mp hany
      have : t = normL m.1 := by simpa using hdec
      exact h4 (this ▸ ht)
  · constructor
    · intro h4 d hd heq
      exact h4 (List.any_eq_true.mpr ⟨d, hd, by simp [heq]⟩)
    · intro h4 hany
      obtain ⟨d, hd, hdec⟩ := List.any_eq_true.mp hany
      exact h4 d hd (by simpa using hdec)

theorem extractPlainEq (content src : Str) (defs : List ParsedDefinition) :
    extractDefsFromPlainText content src defs = specExtractPlain content src defs := by
  unfold extractDefsFromPlainText specExtractPlain
  generalize ((scanAll tryDefPlain1 content).map Prod.snd ++
    (scanAll tryDefPlain2 content).map Prod.snd) = ms
  suffices h : ∀ acc : List Str × List ParsedDefinition,
      ms.foldl (defStepPlain src) acc = ms.foldl (specDefStepPlain src) acc by
    rw [h ([], defs)]
  induction ms with
  | nil => intro acc; rfl
  | cons m ms ih =>
    intro acc
    rw [List.foldl_cons, List.foldl_cons, defStepPlainEq, ih]

theorem defStepContentPairwise (src : Str) (defs : List ParsedDefinition)
    (m : Str × Str) (h : defs.Pairwise (fun a b => a.term ≠ b.term)) :
    (defStepContent src defs m).Pairwise (fun a b => a.term ≠ b.term) := by
  unfold defStepContent
  dsimp only
  split
  · rename_i hcond
    rw [List.pairwise_append]
    refine ⟨h, List.pairwise_singleton _ _, ?_⟩
    intro a ha b hb
    rw [List.mem_singleton] at hb
    subst hb
    intro heq
    exact hcond.2.2.2 (List.any_eq_true.mpr ⟨a, ha, by simp [heq]⟩)
  · exact h

theorem extractContentPairwise (content src : Str)
    (defs : List ParsedDefinition)
    (h : defs.Pairwise (fun a b => a.term ≠ b.term)) :
    (extractDefsFromContent content src defs).Pairwise
      (fun a b => a.term ≠ b.term) := by
  unfold extractDefsFromContent
  generalize (scanAll tryDefContent content).map Prod.snd = ms
  induction ms generalizing defs with
  | nil => exact h
  | cons m ms ih => exact ih _ (defStepContentPairwise src defs m h)

theorem defStepPlainPairwise (src : Str) (acc : List Str × List ParsedDefinition)
    (m : Str × Str) (h : acc.2.Pairwise (fun a b => a.term ≠ b.term)) :
    (defStepPlain src acc m).2.Pairwise (fun a b => a.term ≠ b.term) := by
  unfold defStepPlain
  dsimp only
  split
  · dsimp only
    split
    · rename_i hinner
      rw [List.pairwise_append]
      refine ⟨h, List.pairwise_singleton _ _, ?_⟩
      intro a ha b hb
      rw [List.mem_singleton] at hb
      subst hb
      intro heq
      exact hinner (List.any_eq_true.mpr ⟨a, ha, by simp [heq]⟩)
    · exact h
  · exact h

theorem extractPlainPairwise (content src : Str)
    (defs : List ParsedDefinition)
    (h : defs.Pairwise (fun a b => a.term ≠ b.term)) :
    (extractDefsFromPlainText content src defs).Pairwise
      (fun a b => a.term ≠ b.term) := by
  unfold extractDefsFromPlainText
  generalize ((scanAll tryDefPlain1 content).map Prod.snd ++
    (scanAll tryDefPlain2 content).map Prod.snd) = ms
  suffices hgen : ∀ acc : List Str × List ParsedDefinition,
      acc.2.Pairwise (fun a b => a.term ≠ b.term) →
      (ms.foldl (defStepPlain src) acc).2.Pairwise (fun a b => a.term ≠ b.term) by
    exact hgen ([], defs) h
  induction ms with
  | nil => exact fun acc hacc => hacc
  | cons m ms ih =>
    intro acc hacc
    rw [List.foldl_cons]
    exact ih _ (defStepPlainPairwise src acc m hacc)


theorem compNoSecs (text : Str) (act : ActIndexEntry)
    (h : ∀ raw ∈ splitLines (compLawText text),
      matchSectionAlone (trimL raw) = none ∧
        matchSectionInline (trimL raw) = none) :
    (parseComputerLawText text act).provisions = [] := by
  rw [compProvisionsEq]
  have h2 := compFoldNone (splitLines (compLawText text)) compInit h rfl
  have hm : compMachine (compLawText text) = [] := by
    unfold compMachine
    dsimp only
    rw [h2.1, h2.2]
    rfl
  rw [hm]
  rfl

theorem basicNoSecs (text : Str) (act : ActIndexEntry)
    (h : ∀ raw ∈ splitLines text, basicSecMatch (trimL raw) = none) :
    (parseBasicLawText text act).provisions = [] := by
  rw [basicProvisionsEq]
  have h2 := basicFoldNone (splitLines text) basicInit h rfl
  have hm : basicMachine text = [] := by
    unfold basicMachine
    dsimp only
    rw [h2.1, h2.2]
    rfl
  rw [hm]
  rfl

theorem privacyNoSecs (html : Str) (act : ActIndexEntry)
    (h : scanSecs (privacyBody html) = []) :
    (parsePrivacyLawHtml html act).provisions = [] := by
  rw [privacyProvisionsEq, h, htmlCandidatesNil]
  rfl

theorem israeliNoSecs (html : Str) (act : ActIndexEntry)
    (h1 : scanSecs (privacyBody html) = []) (h2 : scanSecs html = []) :
    (parseIsraeliLawHtml html act).provisions = [] := by
  by_cases hid : act.id = str "privacy-protection-law-1981"
  · show (if act.id = str "privacy-protection-law-1981" then
        parsePrivacyLawHtml html act else _).provisions = []
    rw [if_pos hid]
    exact privacyNoSecs html act h1
  · rw [israeliProvisionsEq html act hid, h2, htmlCandidatesNil]
    rfl

theorem compContentLen (text : Str) (act : ActIndexEntry) :
    ∀ p ∈ (parseComputerLawText text act).provisions, p.content.length ≤ 8000 := by
  intro p hp
  rw [compProvisionsEq] at hp
  obtain ⟨sec, _, hkeep⟩ := List.mem_filterMap.mp hp
  exact specKeepCompLen hkeep

theorem basicContentLen (text : Str) (act : ActIndexEntry) :
    ∀ p ∈ (parseBasicLawText text act).provisions, p.content.length ≤ 8000 := by
  intro p hp
  rw [basicProvisionsEq] at hp
  obtain ⟨sec, _, hkeep⟩ := List.mem_filterMap.mp hp
  exact specKeepBasicLen hkeep

theorem privacyContentLen (html : Str) (act : ActIndexEntry) :
    ∀ p ∈ (parsePrivacyLawHtml html act).provisions, p.content.length ≤ 8000 := by
  intro p hp
  rw [privacyProvisionsEq] at hp
  obtain ⟨c, hc, hkeep⟩ := List.mem_filterMap.mp hp
  have hp2 := specKeepHtmlSome hkeep
  subst hp2
  rw [htmlCandidatesContent _ _ _ _ c hc]
  simp [List.length_take]

theorem israeliContentLen (html : Str) (act : ActIndexEntry) :
    ∀ p ∈ (parseIsraeliLawHtml html act).provisions, p.content.length ≤ 8000 := by
  intro p hp
  by_cases hid : act.id = str "privacy-protection-law-1981"
  · have : parseIsraeliLawHtml html act = parsePrivacyLawHtml html act := by
      show (if act.id = str "privacy-protection-law-1981" then
        parsePrivacyLawHtml html act else _) = _
      rw [if_pos hid]
    rw [this] at hp
    exact privacyContentLen html act p hp
  · rw [israeliProvisionsEq html act hid] at hp
    obtain ⟨c, hc, hkeep⟩ := List.mem_filterMap.mp hp
    have hp2 := specKeepHtmlSome hkeep
    subst hp2
    rw [htmlCandidatesContent _ _ _ _ c hc]
    simp [List.length_take]


theorem scanAllAuxCons (f : Str → Option (Nat × α)) (fuel pos : Nat)
    (c : Char) (cs : Str) :
    scanAllAux f (fuel + 1) pos (c :: cs) =
      (match f (c :: cs) with
       | some (len, a) =>
         (pos, a) :: scanAllAux f fuel (pos + max len 1) ((c :: cs).drop (max len 1))
       | none => scanAllAux f fuel (pos + 1) cs) := rfl

theorem scanAllAuxPos (f : Str → Option (Nat × α)) :
    ∀ (fuel : Nat) (pos : Nat) (l : Str),
      (∀ m ∈ scanAllAux f fuel pos l, pos ≤ m.1) ∧
        (scanAllAux f fuel pos l).Pairwise (fun a b => a.1 < b.1) := by
  intro fuel
  induction fuel with
  | zero => intro pos l; exact ⟨fun m hm => absurd hm (List.not_mem_nil m), List.Pairwise.nil⟩
  | succ fuel ih =>
    intro pos l
    cases l with
    | nil => exact ⟨fun m hm => absurd hm (List.not_mem_nil m), List.Pairwise.nil⟩
    | cons c cs =>
      rw [scanAllAuxCons]
      cases hf : f (c :: cs) with
      | none =>
        dsimp only
        have h2 := ih (pos + 1) cs
        exact ⟨fun m hm => Nat.le_of_succ_le (h2.1 m hm), h2.2⟩
      | some la =>
        obtain ⟨len, a⟩ := la
        dsimp only
        have h2 := ih (pos + max len 1) ((c :: cs).drop (max len 1))
        constructor
        · intro m hm
          rcases List.mem_cons.mp hm with hm | hm
          · subst hm; exact Nat.le_refl pos
          · have := h2.1 m hm
            have hmax : 1 ≤ max len 1 := le_max_right len 1
            omega
        · rw [List.pairwise_cons]
          refine ⟨?_, h2.2⟩
          intro b hb
          have := h2.1 b hb
          have hmax : 1 ≤ max len 1 := le_max_right len 1
          omega

theorem scanSecsSorted (body : Str) :
    (scanSecs body).Pairwise (fun a b => a.pos ≤ b.pos) := by
  unfold scanSecs
  rw [List.pairwise_map]
  exact ((scanAllAuxPos trySectionAt body.length 0 body).2).imp (fun h => Nat.le_of_lt h)

theorem scanHeadsSorted (lit body : Str) :
    (scanHeads lit body).Pairwise (fun a b => a.pos < b.pos) := by
  unfold scanHeads
  rw [List.pairwise_map]
  exact (scanAllAuxPos (tryHeadAt lit) body.length 0 body).2

theorem tryHeadAtCap {lit l : Str} {len : Nat} {cap : Str}
    (h : tryHeadAt lit l = some (len, cap)) :
    ∃ r1, leadsCI lit r1 = true ∧ ∃ n, 1 ≤ n ∧ cap = r1.take n := by
  unfold tryHeadAt at h
  cases hb : tryBold l with
  | none => rw [hb] at h; cases h
  | some r =>
    rw [hb] at h
    dsimp only at h
    by_cases hl : leadsCI lit (r.dropWhile isWsC) = true
    · rw [hl] at h
      simp only [Bool.not_true, Bool.false_eq_true, if_false] at h
      refine ⟨r.dropWhile isWsC, hl, ?_⟩
      split at h
      · cases h
      · split at h
        · cases h
        · split at h
          · split at h
            · cases h
            · split at h
              · split at h
                · injection h with h2
                  injection h2 with h3 h4
                  exact ⟨_, by omega, h4.symm⟩
                · cases h
              · cases h
          · cases h
    · rw [Bool.not_eq_true] at hl
      rw [hl] at h
      simp only [Bool.not_false, if_true] at h
      cases h

theorem scanAllAuxMem (f : Str → Option (Nat × α)) :
    ∀ (fuel pos : Nat) (l : Str) (m : Nat × α), m ∈ scanAllAux f fuel pos l →
      ∃ l2 len, f l2 = some (len, m.2) := by
  intro fuel
  induction fuel with
  | zero => intro pos l m hm; exact absurd hm (List.not_mem_nil m)
  | succ fuel ih =>
    intro pos l m hm
    cases l with
    | nil => exact absurd hm (List.not_mem_nil m)
    | cons c cs =>
      rw [scanAllAuxCons] at hm
      cases hf : f (c :: cs) with
      | none =>
        rw [hf] at hm
        dsimp only at hm
        exact ih (pos + 1) cs m hm
      | some la =>
        obtain ⟨len, a⟩ := la
        rw [hf] at hm
        dsimp only at hm
        rcases List.mem_cons.mp hm with hm | hm
        · subst hm
          exact ⟨c :: cs, len, hf⟩
        · exact ih _ _ m hm

theorem dropWhileAppendOne {p : Char → Bool} {x : Char} (hx : p x = false) :
    ∀ A : Str, ∃ D : Str, List.dropWhile p (A ++ [x]) = D ++ [x] := by
  intro A
  induction A with
  | nil =>
    refine ⟨[], ?_⟩
    rw [List.nil_append, List.dropWhile_cons, hx]
    simp
  | cons a A2 ih =>
    by_cases ha : p a = true
    · obtain ⟨D, hD⟩ := ih
      refine ⟨D, ?_⟩
      rw [List.cons_append, List.dropWhile_cons, ha]
      simpa using hD
    · refine ⟨a :: A2, ?_⟩
      rw [List.cons_append, List.dropWhile_cons]
      simp [ha]

theorem trimLCons {x : Char} (hx : isWsC x = false) (l : Str) :
    ∃ M : Str, trimL (x :: l) = x :: M := by
  unfold trimL
  rw [List.dropWhile_cons, hx]
  simp only [Bool.false_eq_true, if_false]
  rw [List.reverse_cons]
  obtain ⟨D, hD⟩ := dropWhileAppendOne hx l.reverse
  rw [hD, List.reverse_append]
  exact ⟨D.reverse, rfl⟩

theorem squeezeWsConsEq (b : Bool) (x : Char) (l : Str) :
    squeezeWs b (x :: l) =
      if isWsC x = true then
        (if b = true then squeezeWs true l else ' ' :: squeezeWs true l)
      else x :: squeezeWs false l := rfl

theorem squeezeWsCons {x : Char} (hx : isWsC x = false) (b : Bool) (l : Str) :
    squeezeWs b (x :: l) = x :: squeezeWs false l := by
  rw [squeezeWsConsEq, hx]
  simp

theorem normLCons {x : Char} (hx : isWsC x = false) (l : Str) :
    ∃ M : Str, normL (x :: l) = x :: M := by
  unfold normL
  rw [squeezeWsCons hx]
  exact trimLCons hx _

theorem stripTagsFuelCons (fuel : Nat) (c : Char) (cs : Str) :
    stripTagsFuel (fuel + 1) (c :: cs) =
      if c = '<' ∧ cs.takeWhile (· ≠ '>') ≠ [] ∧ cs.dropWhile (· ≠ '>') ≠ [] then
        ' ' :: stripTagsFuel fuel ((cs.dropWhile (· ≠ '>')).drop 1)
      else c :: stripTagsFuel fuel cs := rfl

theorem stripTagsCons {x : Char} (hx : x ≠ '<') (l : Str) :
    ∃ M : Str, stripTags (x :: l) = x :: M := by
  show ∃ M, stripTagsFuel (x :: l).length (x :: l) = x :: M
  rw [List.length_cons, stripTagsFuelCons]
  rw [if_neg (fun hc => hx hc.1)]
  exact ⟨_, rfl⟩

theorem replaceSubFuelCons (p : Char) (ps rep : Str) (fuel : Nat) (c : Char)
    (cs : Str) :
    replaceSubFuel p ps rep (fuel + 1) (c :: cs) =
      if p = c ∧ leads ps cs then
        rep ++ replaceSubFuel p ps rep fuel (cs.drop ps.length)
      else c :: replaceSubFuel p ps rep fuel cs := rfl

theorem replaceSubCons {p x : Char} (hx : p ≠ x) (ps rep l : Str) :
    ∃ M : Str, replaceSub p ps rep (x :: l) = x :: M := by
  show ∃ M, replaceSubFuel p ps rep (x :: l).length (x :: l) = x :: M
  rw [List.length_cons, replaceSubFuelCons]
  rw [if_neg (fun hc => hx hc.1)]
  exact ⟨_, rfl⟩

theorem decodeEntitiesCons {x : Char} (hx : x ≠ '&') (l : Str) :
    ∃ M : Str, decodeEntities (x :: l) = x :: M := by
  unfold decodeEntities
  dsimp only
  have hne : ('&' : Char) ≠ x := fun hh => hx hh.symm
  obtain ⟨M1, h1⟩ := replaceSubCons hne (str "nbsp;") (str " ") l
  rw [h1]
  obtain ⟨M2, h2⟩ := replaceSubCons hne (str "amp;") (str "&") M1
  rw [h2]
  obtain ⟨M3, h3⟩ := replaceSubCons hne (str "lt;") (str "<") M2
  rw [h3]
  obtain ⟨M4, h4⟩ := replaceSubCons hne (str "gt;") (str ">") M3
  rw [h4]
  obtain ⟨M5, h5⟩ := replaceSubCons hne (str "quot;") (str "\"") M4
  rw [h5]
  exact replaceSubCons hne (str "#39;") [Char.ofNat 39] M5

theorem stripHtmlLConsNe {x : Char} (hws : isWsC x = false) (hlt : x ≠ '<')
    (hamp : x ≠ '&') (l : Str) :
    ∃ M : Str, stripHtmlL (x :: l) = x :: M := by
  unfold stripHtmlL
  obtain ⟨M1, h1⟩ := stripTagsCons hlt l
  rw [h1]
  obtain ⟨M2, h2⟩ := decodeEntitiesCons hamp M1
  rw [h2]
  exact normLCons hws M2

theorem leadsCIConsEx {c0 : Char} {lit2 r1 : Str}
    (h : leadsCI (c0 :: lit2) r1 = true) :
    ∃ x xs, r1 = x :: xs ∧ lowerC c0 = lowerC x := by
  cases r1 with
  | nil => cases h
  | cons x xs =>
    refine ⟨x, xs, rfl, ?_⟩
    have h2 : (decide (lowerC c0 = lowerC x) && leadsCI lit2 xs) = true := h
    rw [Bool.and_eq_true] at h2
    exact of_decide_eq_true h2.1

theorem scanHeadsNamesNe (c0 : Char) (lit2 body : Str)
    (hspec : ∀ b : Char,
      (b = ' ' ∨ b = '\t' ∨ b = '\n' ∨ b = '\r' ∨ b = Char.ofNat 11 ∨
       b = Char.ofNat 12 ∨ b = '<' ∨ b = '&') → lowerC b ≠ lowerC c0) :
    ∀ ch ∈ scanHeads (c0 :: lit2) body, ch.name ≠ [] := by
  intro ch hch
  unfold scanHeads at hch
  obtain ⟨m, hm, hmap⟩ := List.mem_map.mp hch
  obtain ⟨l2, len2, hf⟩ :=
    scanAllAuxMem (tryHeadAt (c0 :: lit2)) body.length 0 body m hm
  obtain ⟨r1, hlead, n, hn1, hcap⟩ := tryHeadAtCap hf
  obtain ⟨x, xs, hr1, hlow⟩ := leadsCIConsEx hlead
  have hcap2 : m.2 = x :: xs.take (n - 1) := by
    rw [hcap, hr1]
    obtain ⟨k, hk⟩ : ∃ k, n = k + 1 := ⟨n - 1, by omega⟩
    rw [hk, List.take_succ_cons]
    simp [hk]
  have hxws : isWsC x = false := by
    by_contra hc
    rw [Bool.not_eq_false] at hc
    have hx6 : x = ' ' ∨ x = '\t' ∨ x = '\n' ∨ x = '\r' ∨ x = Char.ofNat 11 ∨
        x = Char.ofNat 12 := by
      have := hc
      simp only [isWsC, Bool.or_eq_true, decide_eq_true_eq] at this
      tauto
    rcases hx6 with h6|h6|h6|h6|h6|h6 <;>
      exact hspec x (by simp [h6]) hlow.symm
  have hxlt : x ≠ '<' := fun hh => hspec x (by simp [hh]) hlow.symm
  have hxamp : x ≠ '&' := fun hh => hspec x (by simp [hh]) hlow.symm
  have hname : ch.name = normL (stripHtmlL m.2) := by rw [← hmap]
  rw [hname, hcap2]
  obtain ⟨M, hM⟩ := stripHtmlLConsNe hxws hxlt hxamp _
  rw [hM]
  obtain ⟨M2, hM2⟩ := normLCons hxws M
  rw [hM2]
  simp

theorem scanHeadsChapterNames (body : Str) :
    ∀ ch ∈ scanHeads (str "chapter") body, ch.name ≠ [] := by
  have hlit : str "chapter" = 'c' :: str "hapter" := rfl
  rw [hlit]
  apply scanHeadsNamesNe
  intro b hb
  rcases hb with h|h|h|h|h|h|h|h <;> subst h <;> decide

-- ---------------------------------------------------------------------------
-- Claim theorems
-- ---------------------------------------------------------------------------

/-- C1: each parse function (`parsePrivacyLawHtml`, `parseComputerLawText`,
`parseBasicLawText`, `parseIsraeliLawHtml`) is a total function returning a
`ParsedAct` — in this embedding all four are total Lean functions, so they
never throw — and an input with no recognizable structure (no line matching
a section pattern for the plain-text parsers; no bold section-heading match
for the HTML parsers) yields a `ParsedAct` whose provisions sequence is
empty rather than an exception. -/
theorem claimC1NoThrowEmptyProvisions :
    (∀ (text : Str) (act : ActIndexEntry),
      (∀ raw ∈ splitLines (compLawText text),
        matchSectionAlone (trimL raw) = none ∧
          matchSectionInline (trimL raw) = none) →
      (parseComputerLawText text act).provisions = []) ∧
    (∀ (text : Str) (act : ActIndexEntry),
      (∀ raw ∈ splitLines text, basicSecMatch (trimL raw) = none) →
      (parseBasicLawText text act).provisions = []) ∧
    (∀ (html : Str) (act : ActIndexEntry),
      scanSecs (privacyBody html) = [] →
      (parsePrivacyLawHtml html act).provisions = []) ∧
    (∀ (html : Str) (act : ActIndexEntry),
      scanSecs (privacyBody html) = [] → scanSecs html = [] →
      (parseIsraeliLawHtml html act).provisions = []) :=
  ⟨compNoSecs, basicNoSecs, privacyNoSecs, israeliNoSecs⟩

/-- C1 witness: all four parsers applied to concrete unstructured inputs
return an empty provision sequence. -/
theorem claimC1NoThrowEmptyProvisionsWitness :
    (parseComputerLawText (str "just prose with no structure at all") sampleAct).provisions = [] ∧
    (parseBasicLawText (str "just prose with no structure at all") sampleAct).provisions = [] ∧
    (parsePrivacyLawHtml (str "no markup here whatsoever") sampleAct).provisions = [] ∧
    (parseIsraeliLawHtml (str "no markup here whatsoever") sampleAct).provisions = [] := by
  obtain ⟨h1, h2, h3, h4⟩ := claimC1NoThrowEmptyProvisions
  exact ⟨h1 _ sampleAct (by decide), h2 _ sampleAct (by decide),
         h3 _ sampleAct (by decide), h4 _ sampleAct (by decide) (by decide)⟩

/-- C3: running `parseComputerLawText` on the spec's plain-text scenario
yields exactly two provisions in order: section "1" with title
"Marginal Title" (from the marginal-note buffer) and content
"Body text here that is long enough."; then section "2" with empty title
and content beginning with "2. Inline body text" (the accumulator
pre-seeded with the normalized full inline line). -/
theorem claimC3PlainTextScenario :
    (parseComputerLawText c3Input sampleAct).provisions =
      [⟨str "sec1", none, str "1", str "Marginal Title",
        str "Body text here that is long enough."⟩,
       ⟨str "sec2", none, str "2", str "",
        str "2. Inline body text also long enough."⟩] := by
  decide

/-- C9: every provision returned by `parseBasicLawText` has
`chapter = none`: the basic-law variant performs no chapter detection, even
when the input contains "Chapter <Word>: <text>" heading lines. -/
theorem claimC9BasicNoChapter :
    ∀ (text : Str) (act : ActIndexEntry),
      ∀ p ∈ (parseBasicLawText text act).provisions, p.chapter = none := by
  intro text act p hp
  rw [basicProvisionsEq] at hp
  obtain ⟨sec, _, hkeep⟩ := List.mem_filterMap.mp hp
  unfold specKeepBasic at hkeep
  dsimp only at hkeep
  by_cases hl : (normL sec.content).length > 10
  · rw [if_pos hl] at hkeep
    injection hkeep with hk
    rw [← hk]
  · rw [if_neg hl] at hkeep
    cases hkeep

/-- C9 witness: an input containing a "Chapter Two: ..." heading line still
yields a provision with no chapter. -/
theorem claimC9BasicNoChapterWitness :
    ((parseBasicLawText (str "Chapter Two: Stuff\n1. Some long content here.")
      sampleAct).provisions.map ParsedProvision.chapter) = [none] := by
  have hl : (parseBasicLawText (str "Chapter Two: Stuff\n1. Some long content here.")
      sampleAct).provisions =
      [⟨str "sec1", none, str "1", str "Chapter Two: Stuff",
        str "1. Some long content here."⟩] := by decide
  rw [hl, List.map_singleton,
    claimC9BasicNoChapter (str "Chapter Two: Stuff\n1. Some long content here.")
      sampleAct _ (hl ▸ List.mem_singleton.mpr rfl)]

/-- C10: `parseComputerLawText` parses only the suffix starting at the
first occurrence of "Computers Law, 5755" — for an input split as
`pre ++ marker ++ post` with no occurrence of the marker starting inside
`pre`, the result equals running the state machine on `marker ++ post`
alone, so no provision is derived from the table-of-contents region; when
the marker is absent the whole input is parsed. -/
theorem claimC10TocSkip :
    (∀ (pre post : Str) (act : ActIndexEntry),
      (∀ j, j < pre.length →
        leads (str "Computers Law, 5755")
          ((pre ++ (str "Computers Law, 5755" ++ post)).drop j) = false) →
      parseComputerLawText (pre ++ (str "Computers Law, 5755" ++ post)) act =
        compParseBody (str "Computers Law, 5755" ++ post) act) ∧
    (∀ (text : Str) (act : ActIndexEntry),
      findSubstr (str "Computers Law, 5755") text = none →
      parseComputerLawText text act = compParseBody text act) := by
  constructor
  · intro pre post act h
    unfold parseComputerLawText compLawText
    rw [findSubstrAppend (leadsAppendSelf _ _) h]
    dsimp only
    rw [List.drop_left]
  · intro text act h
    unfold parseComputerLawText compLawText
    rw [h]

/-- C10 witness: a fake table-of-contents section line before the marker is
skipped — only the section after the marker is emitted. -/
theorem claimC10TocSkipWitness :
    parseComputerLawText (c10Pre ++ (str "Computers Law, 5755" ++ c10Post)) sampleAct =
      compParseBody (str "Computers Law, 5755" ++ c10Post) sampleAct ∧
    ((parseComputerLawText (c10Pre ++ (str "Computers Law, 5755" ++ c10Post))
      sampleAct).provisions.map (fun p => p.sectionLabel)) = [str "2"] :=
  ⟨claimC10TocSkip.1 c10Pre c10Post sampleAct (by decide), by decide⟩


theorem buildHtmlSpecTop (wd : Bool) (body : Str) (chs : List ChapMatch)
    (secs : List SecMatch)
    (hs : chs.Pairwise (fun a b => a.pos < b.pos))
    (hn : ∀ ch ∈ chs, ch.name ≠ [])
    (hsort : secs.Pairwise (fun a b => a.pos ≤ b.pos)) :
    (buildHtmlAux wd body chs [] [] [] secs).1 = specBuildHtml body chs secs := by
  have h0 : ([] : Str) =
      (((chs.filter (fun ch => decide (ch.pos < 0))).getLast?).map
        ChapMatch.name).getD [] := by
    have hf : chs.filter (fun ch => decide (ch.pos < 0)) = [] := by
      rw [List.filter_eq_nil_iff]
      intro ch _
      simp
    rw [hf]
    rfl
  exact buildHtmlSpec wd body chs hs hn secs 0 [] [] [] h0
    (fun s _ => Nat.zero_le s.pos) hsort

/-- C2: in the HTML strategies the provisions of `parsePrivacyLawHtml` and
of the generic branch of `parseIsraeliLawHtml` are produced by the shared
assembly loop `buildHtmlAux`, and that loop attributes to every emitted
section the normalized name of the chapter (or merged article) heading
whose offset is the greatest offset strictly less than the section's
offset — `specChapterOf`, the spec-side argmax — while a section preceding
every heading gets `chapter = none`.  For the generic strategy this holds
unconditionally (its heading scan is strictly offset-sorted with nonempty
normalized names and its section scan is offset-ordered, all proved); for
the privacy strategy, whose heading list merges the chapter and article
scans and sorts them, it holds under the offset-sortedness and
nonempty-name invariants of that merged list. -/
theorem claimC2ChapterAttribution :
    (∀ (html : Str) (act : ActIndexEntry),
      (parsePrivacyLawHtml html act).provisions =
        (buildHtmlAux true (privacyBody html)
          (sortByPos (scanHeads (str "chapter") (privacyBody html) ++
            scanHeads (str "article") (privacyBody html))) [] [] []
          (scanSecs (privacyBody html))).1) ∧
    (∀ (html : Str) (act : ActIndexEntry),
      act.id ≠ str "privacy-protection-law-1981" →
      (parseIsraeliLawHtml html act).provisions =
        (buildHtmlAux false html (scanHeads (str "chapter") html) [] [] []
          (scanSecs html)).1) ∧
    (∀ (html : Str) (act : ActIndexEntry),
      act.id ≠ str "privacy-protection-law-1981" →
      (parseIsraeliLawHtml html act).provisions =
        specBuildHtml html (scanHeads (str "chapter") html) (scanSecs html)) ∧
    (∀ (wd : Bool) (body : Str) (chs : List ChapMatch) (secs : List SecMatch),
      chs.Pairwise (fun a b => a.pos < b.pos) →
      (∀ ch ∈ chs, ch.name ≠ []) →
      secs.Pairwise (fun a b => a.pos ≤ b.pos) →
      (buildHtmlAux wd body chs [] [] [] secs).1 = specBuildHtml body chs secs) := by
  refine ⟨fun html act => rfl, ?_, ?_, buildHtmlSpecTop⟩
  · intro html act hid
    show (if act.id = str "privacy-protection-law-1981" then
      parsePrivacyLawHtml html act else _).provisions = _
    rw [if_neg hid]
    rfl
  · intro html act hid
    have hglue : (parseIsraeliLawHtml html act).provisions =
        (buildHtmlAux false html (scanHeads (str "chapter") html) [] [] []
          (scanSecs html)).1 := by
      show (if act.id = str "privacy-protection-law-1981" then
        parsePrivacyLawHtml html act else _).provisions = _
      rw [if_neg hid]
      rfl
    rw [hglue]
    exact buildHtmlSpecTop false html _ _ (scanHeadsSorted _ html)
      (scanHeadsChapterNames html) (scanSecsSorted html)

/-- C2 witness: a concrete body with two headings and two sections — the
section before every heading gets no chapter, the later section gets the
heading with the greatest preceding offset. -/
theorem claimC2ChapterAttributionWitness :
    (buildHtmlAux true (str "0123456789abcdefghij0123456789abcdefghij0123456789abcdefghij")
      [⟨5, str "CHAPTER ONE: A"⟩, ⟨25, str "Article Two: B"⟩] [] [] []
      [⟨0, str "1", str "T1"⟩, ⟨30, str "2", str "T2"⟩]).1 =
      specBuildHtml (str "0123456789abcdefghij0123456789abcdefghij0123456789abcdefghij")
        [⟨5, str "CHAPTER ONE: A"⟩, ⟨25, str "Article Two: B"⟩]
        [⟨0, str "1", str "T1"⟩, ⟨30, str "2", str "T2"⟩] ∧
    ((buildHtmlAux true (str "0123456789abcdefghij0123456789abcdefghij0123456789abcdefghij")
      [⟨5, str "CHAPTER ONE: A"⟩, ⟨25, str "Article Two: B"⟩] [] [] []
      [⟨0, str "1", str "T1"⟩, ⟨30, str "2", str "T2"⟩]).1.map
        (fun p => p.chapter)) = [none, some (str "Article Two: B")] :=
  ⟨claimC2ChapterAttribution.2.2.2 true _ _ _ (by decide) (by decide) (by decide),
   by decide⟩

/-- C4: in every strategy a recognized section is emitted iff its
normalized content length strictly exceeds 10 characters: the emission
stage of each parser equals a `filterMap` that keeps exactly the sections
with content length > 10 (truncated to 8000); in particular the plain-text
input "1. a" yields zero provisions and an 11-character content is kept. -/
theorem claimC4ContentThreshold :
    (∀ (wd : Bool) (body : Str) (chs : List ChapMatch) (cur : Str)
      (secs : List SecMatch),
      (buildHtmlAux wd body chs cur [] [] secs).1 =
        (htmlCandidates body chs cur secs).filterMap specKeepHtml) ∧
    (∀ (text : Str) (act : ActIndexEntry),
      (parseComputerLawText text act).provisions =
        (compMachine (compLawText text)).filterMap specKeepComp) ∧
    (∀ (text : Str) (act : ActIndexEntry),
      (parseBasicLawText text act).provisions =
        (basicMachine text).filterMap specKeepBasic) ∧
    (parseComputerLawText (str "1. a") sampleAct).provisions = [] ∧
    (parseComputerLawText (str "1. 12345678") sampleAct).provisions =
      [⟨str "sec1", none, str "1", str "", str "1. 12345678"⟩] := by
  refine ⟨?_, compProvisionsEq, basicProvisionsEq, by decide, by decide⟩
  intro wd body chs cur secs
  rw [buildHtmlAuxFst, List.nil_append]

/-- C5: in every strategy an emitted provision's content never exceeds
8000 characters, and a section whose normalized content has exactly 9000
characters is emitted with content of length exactly 8000 (shown on the
emission step of the statute machine). -/
theorem claimC5Truncation :
    (∀ (text : Str) (act : ActIndexEntry),
      ∀ p ∈ (parseComputerLawText text act).provisions, p.content.length ≤ 8000) ∧
    (∀ (text : Str) (act : ActIndexEntry),
      ∀ p ∈ (parseBasicLawText text act).provisions, p.content.length ≤ 8000) ∧
    (∀ (html : Str) (act : ActIndexEntry),
      ∀ p ∈ (parsePrivacyLawHtml html act).provisions, p.content.length ≤ 8000) ∧
    (∀ (html : Str) (act : ActIndexEntry),
      ∀ p ∈ (parseIsraeliLawHtml html act).provisions, p.content.length ≤ 8000) ∧
    (∀ (acc : List ParsedProvision × List ParsedDefinition) (sec : SecAcc),
      (normL sec.content).length = 9000 →
      (compEmitStep acc sec).1 = acc.1 ++
        [⟨str "sec" ++ sec.num,
          (if sec.chapter.isEmpty then none else some sec.chapter),
          sec.num, sec.title, (normL sec.content).take 8000⟩] ∧
      ((normL sec.content).take 8000).length = 8000) := by
  refine ⟨compContentLen, basicContentLen, privacyContentLen, israeliContentLen, ?_⟩
  intro acc sec h9
  have hgt : (normL sec.content).length > 10 := by omega
  constructor
  · unfold compEmitStep
    dsimp only
    rw [if_pos hgt]
  · rw [List.length_take, h9]
    omega

/-- C5 witness: a concrete emitted provision is within the 8000 bound, and
a concrete section accumulator with 9000 characters of normalized content
is emitted with exactly 8000 characters. -/
theorem claimC5TruncationWitness :
    (⟨str "sec1", none, str "1", str "", str "1. 12345678"⟩ :
      ParsedProvision).content.length ≤ 8000 ∧
    ((compEmitStep ([], [])
      ⟨str "9", str "Nine", List.replicate 9000 'a', str ""⟩).1.map
        (fun p => p.content.length)) = [8000] := by
  have hnorm : normL (List.replicate 9000 'a') = List.replicate 9000 'a' :=
    normLNo (fun c hc => by rw [List.eq_of_mem_replicate hc]; rfl)
  have h9 : (normL ((⟨str "9", str "Nine", List.replicate 9000 'a', str ""⟩ :
      SecAcc).content)).length = 9000 := by
    show (normL (List.replicate 9000 'a')).length = 9000
    rw [hnorm, List.length_replicate]
  have hc5 := claimC5Truncation.2.2.2.2 ([], [])
    ⟨str "9", str "Nine", List.replicate 9000 'a', str ""⟩ h9
  constructor
  · exact claimC5Truncation.1 (str "1. 12345678") sampleAct _ (by decide)
  · rw [hc5.1, List.nil_append, List.map_singleton, hc5.2]


/-- C6 counterexample: the claim says a quoted-term match with a
1-character term (and a definition longer than 5 characters) is accepted,
but the source guard is `term.length > 1 && term.length < 80`, so the
1-character term "x" with the 19-character definition "a proper definition"
is rejected and no definition is appended. -/
theorem claimC6Counterexample :
    extractDefsFromContent (str "\"x\" - a proper definition;") (str "sec3") [] =
      [] := by
  decide

/-- C6 (amended): in both definition extractors a quoted-term match is
appended exactly when the normalized term has length strictly between 1
and 80 (that is, 2 to 79 characters), the normalized definition has length
greater than 5 characters, and the term has not already been captured —
each source extractor equals its spec-side counterpart written with the
amended bounds; in particular a 2-character term and a 79-character term
are accepted while an 80-character term is rejected. -/
theorem claimC6DefinitionBounds :
    (∀ (content src : Str) (defs : List ParsedDefinition),
      extractDefsFromContent content src defs =
        specExtractContent content src defs) ∧
    (∀ (content src : Str) (defs : List ParsedDefinition),
      extractDefsFromPlainText content src defs =
        specExtractPlain content src defs) ∧
    (extractDefsFromContent (str "\"ab\" - a proper definition;") (str "sec3") [] =
      [⟨str "ab", str "a proper definition", some (str "sec3")⟩]) ∧
    (extractDefsFromContent (('\"' :: term79) ++ str "\" - a proper definition;")
      (str "sec3") [] =
      [⟨term79, str "a proper definition", some (str "sec3")⟩]) ∧
    (extractDefsFromContent (('\"' :: term80) ++ str "\" - a proper definition;")
      (str "sec3") [] = []) :=
  ⟨extractContentEq, extractPlainEq, by decide, by decide, by decide⟩

/-- C7 counterexample: the claim's own scenario `"x" - def one; "x" - def two;`
yields zero definitions, not one — the term "x" has length 1 and is dropped
by the `term.length > 1` guard before deduplication can apply. -/
theorem claimC7Counterexample :
    extractDefsFromContent (str "\"x\" - def one; \"x\" - def two;")
      (str "sec1") [] = [] := by
  decide

/-- C7 (amended): definition terms are unique per document with the first
occurrence winning — both extractors preserve pairwise-distinct terms, and
for a term long enough to pass the length filter (for example "xy") the
content `"xy" - def one; "xy" - def two;` yields exactly one definition
carrying the first definition text. -/
theorem claimC7DefinitionDedup :
    (∀ (content src : Str) (defs : List ParsedDefinition),
      defs.Pairwise (fun a b => a.term ≠ b.term) →
      (extractDefsFromContent content src defs).Pairwise
        (fun a b => a.term ≠ b.term)) ∧
    (∀ (content src : Str) (defs : List ParsedDefinition),
      defs.Pairwise (fun a b => a.term ≠ b.term) →
      (extractDefsFromPlainText content src defs).Pairwise
        (fun a b => a.term ≠ b.term)) ∧
    (extractDefsFromContent (str "\"xy\" - def one; \"xy\" - def two;")
      (str "sec1") [] =
      [⟨str "xy", str "def one", some (str "sec1")⟩]) :=
  ⟨extractContentPairwise, extractPlainPairwise, by decide⟩

/-- C7 witness: the dedup-preservation parts applied to concrete inputs
with an initially empty (vacuously pairwise-distinct) definition list. -/
theorem claimC7DefinitionDedupWitness :
    (extractDefsFromContent (str "\"xy\" - def one; \"ab\" - def two;")
      (str "sec1") []).Pairwise (fun a b => a.term ≠ b.term) ∧
    (extractDefsFromPlainText (str "\"xy\" - def one; \"ab\" - def two;")
      (str "sec1") []).Pairwise (fun a b => a.term ≠ b.term) :=
  ⟨claimC7DefinitionDedup.1 _ _ [] List.Pairwise.nil,
   claimC7DefinitionDedup.2.1 _ _ [] List.Pairwise.nil⟩

set_option maxRecDepth 4000 in
/-- C8 counterexample: the claim says a section-inline line whose trailing
text begins with "Published in" is appended to the current accumulator's
content; in the code such a line is skipped entirely (`continue`), so the
resulting content omits it — it is not the claimed appended string. -/
theorem claimC8Counterexample :
    ((parseComputerLawText c8Input sampleAct).provisions.map
      (fun p => p.content)) =
      [str "Some long content here. More trailing content here."] ∧
    str "Some long content here. More trailing content here." ≠
      str "Some long content here. 9. Published in the Official Gazette More trailing content here." := by
  exact ⟨by decide, by decide⟩

/-- C8 (amended): a line of the form label + period + trailing text whose
trailing text begins with "Published in" does not start a new section and
is skipped entirely: the state of `parseComputerLawText` (current
accumulator included) is unchanged, so nothing is appended to the content. -/
theorem claimC8PublishedInSkip :
    ∀ (st : CompState) (raw n g2 : Str),
      matchChapterLine (trimL raw) = false →
      matchSectionAlone (trimL raw) = none →
      matchSectionInline (trimL raw) = some (n, g2) →
      leadsCI (str "published in") g2 = true →
      compStep st raw = st := by
  intro st raw n g2 hch hal hin hpub
  unfold compStep
  dsimp only
  rw [hch, hal, hin]
  dsimp only
  rw [hpub]
  simp

/-- C8 witness: a mid-document "9. Published in the Official Gazette" line
leaves a state with an open section accumulator unchanged. -/
theorem claimC8PublishedInSkipWitness :
    compStep ⟨[], some ⟨str "1", str "", str " Some long content here.", str ""⟩, [], []⟩
      (str "9. Published in the Official Gazette") =
      ⟨[], some ⟨str "1", str "", str " Some long content here.", str ""⟩, [], []⟩ :=
  claimC8PublishedInSkip _ _ (str "9")
    (str "Published in the Official Gazette")
    (by decide) (by decide) (by decide) (by decide)

end IsraelLaw
